import Mathlib

set_option maxRecDepth 16000

/-!
Verification of the match-log parsing pipeline implemented in
src/match_record.py (class MatchRecord).

The Python code is shallowly embedded over `List Char`:

* every regular expression of the source is represented as a term of a
  small regex AST (`Re`) together with a backtracking matcher (`mre`)
  that implements the leftmost / greedy / first-alternative semantics of
  Python's `re` module for the fragment the source uses (literals,
  single-character classes with `+`, `.*` / `.+`, alternation, groups);
* Python exceptions are modelled by `Except PyErr`; the `try/except
  (IndexError, ValueError)` of `MatchRecord.__init__` and the absent
  record (`records = None`, `get_json` returning `None`) are modelled by
  `PipeResult`;
* `set` iteration order (used by `_get_players` via `list(players)`) is
  not determined by the input text in CPython, so the pipeline takes an
  explicit iteration-order parameter `order`; a faithful order is any
  permutation of the collected distinct identifiers;
* the interactive operator prompt of `_get_winner` (an external
  collaborator per the specification) is modelled by an oracle `op`
  giving the validated answer the retry loop eventually accepts;
* the `records['date']` field (filesystem modification time) is outside
  the text-to-record function and is omitted from the record model.

Python's `\w`, `\s` and `\d` are modelled by their ASCII fragments.
-/

/-- Str abbreviates the character-list view of decoded text. -/
abbrev Str : Type := List Char

/-- str converts a Lean string literal to the character-list view. -/
def str (s : String) : Str := s.data

/-- subStr models Python's substring containment test (needle in hay). -/
def subStr (needle : List Char) : (hay : List Char) → Bool
  | [] => needle.isEmpty
  | c :: t => needle.isPrefixOf (c :: t) || subStr needle t

/-- resplit models re.split on a single-character class: the text is cut
at every character satisfying p, the separators are dropped and the
(possibly empty) fragments between them are kept in order. -/
def resplit (p : Char → Bool) : List Char → List (List Char)
  | [] => [[]]
  | c :: cs =>
    match resplit p cs with
    | [] => [[c]]
    | l :: ls => if p c then [] :: l :: ls else (c :: l) :: ls

/-- joinWith rebuilds a text from fragments with a separator character,
as str.join would. -/
def joinWith (sep : Char) : List (List Char) → List Char
  | [] => []
  | [l] => l
  | l :: l2 :: ls => l ++ sep :: joinWith sep (l2 :: ls)

/-- isWsCh models the ASCII fragment of regex \\s (also the whitespace
class of Python str.split). -/
def isWsCh (c : Char) : Bool :=
  c = ' ' || c = '\t' || c = '\n' || c = '\r' || c = Char.ofNat 12 || c = Char.ofNat 11

/-- pySplitWs models Python str.split() with no argument: split on runs
of whitespace, discarding empty tokens. -/
def pySplitWs : List Char → List (List Char)
  | [] => []
  | c :: cs =>
    if isWsCh c then pySplitWs cs
    else
      match pySplitWs cs with
      | [] => [[c]]
      | t :: ts =>
        match cs with
        | [] => [[c]]
        | d :: _ => if isWsCh d then [c] :: t :: ts else (c :: t) :: ts

/-- parseNat models int() applied to a run of decimal digits. -/
def parseNat (l : List Char) : Nat :=
  l.foldl (fun a c => a * 10 + (c.toNat - 48)) 0

/-- Dict models a Python dict as an association list in insertion order;
assignment to an existing key updates it in place. -/
abbrev Dict (α : Type) : Type := List (Str × α)

/-- dictInsert models d[k] = v on a Python dict. -/
def dictInsert {α : Type} (k : Str) (v : α) : Dict α → Dict α
  | [] => [(k, v)]
  | (k2, v2) :: d => if k2 = k then (k, v) :: d else (k2, v2) :: dictInsert k v d

/-- dictFind models d.get(k) (lookup without raising). -/
def dictFind {α : Type} (k : Str) : Dict α → Option α
  | [] => none
  | (k2, v2) :: d => if k2 = k then some v2 else dictFind k d

/-- PyErr enumerates the Python exception classes the embedded code can
raise.  nameError stands for the UnboundLocalError of _get_last_turn. -/
inductive PyErr : Type
  | valueError
  | indexError
  | keyError
  | attributeError
  | nameError
deriving DecidableEq, Repr

/-- Role is the logical label a participant identifier is mapped to. -/
inductive Role : Type
  | player
  | opponent
deriving DecidableEq, Repr

/-- Outcome is the winner field of one game record. -/
inductive Outcome : Type
  | player
  | opponent
  | draw
  | unknown
deriving DecidableEq, Repr

/-- roleOutcome converts the role of a directly matched winner to the
recorded outcome. -/
def roleOutcome : Role → Outcome
  | .player => .player
  | .opponent => .opponent

/-- Re is the regex fragment used by match_record.py: literals,
one-character classes, greedy + and * over a character class,
alternation (tried left to right), sequencing, and capture groups. -/
inductive Re : Type
  | lit : List Char → Re
  | cls : (Char → Bool) → Re
  | plus : (Char → Bool) → Re
  | star : (Char → Bool) → Re
  | seq : Re → Re → Re
  | alt : Re → Re → Re
  | grp : Nat → Re → Re

/-- Caps is the capture-group environment of a match, most recent first. -/
abbrev Caps : Type := List (Nat × List Char)

/-- capGet reads a capture group from the environment. -/
def capGet (n : Nat) : Caps → Option (List Char)
  | [] => none
  | (m, s) :: c => if m = n then some s else capGet n c

/-- capGetD reads a capture group with a default (a successful Python
match always carries its groups, so the default is never consulted). -/
def capGetD (c : Caps) (n : Nat) : List Char :=
  (capGet n c).getD []

/-- firstSome returns the first success of f along a list: the order of
the list realises the backtracking priority of the regex engine. -/
def firstSome {α β : Type} : List α → (α → Option β) → Option β
  | [], _ => none
  | a :: as, f =>
    match f a with
    | some b => some b
    | none => firstSome as f

/-- greedySuffixes lists the rests of s after consuming a run of
characters in class p, longest consumption first: the candidate order of
a greedy star. -/
def greedySuffixes (p : Char → Bool) : List Char → List (List Char)
  | [] => [[]]
  | c :: cs => if p c then greedySuffixes p cs ++ [c :: cs] else [c :: cs]

/-- plusSuffixes is greedySuffixes restricted to nonempty consumption:
the candidate order of a greedy plus. -/
def plusSuffixes (p : Char → Bool) : List Char → List (List Char)
  | [] => []
  | c :: cs => if p c then greedySuffixes p cs else []

/-- mre runs regex r on s in continuation-passing style.  The
continuation receives the remaining input and the capture environment;
trying candidates in the order produced by greedySuffixes/plusSuffixes
and alternatives left first gives exactly the backtracking priority of
Python's re for this fragment. -/
def mre : Re → List Char → Caps → (List Char → Caps → Option (List Char × Caps)) →
    Option (List Char × Caps)
  | .lit l, s, caps, k => if l.isPrefixOf s then k (s.drop l.length) caps else none
  | .cls p, s, caps, k =>
    match s with
    | [] => none
    | c :: cs => if p c then k cs caps else none
  | .plus p, s, caps, k => firstSome (plusSuffixes p s) (fun rest => k rest caps)
  | .star p, s, caps, k => firstSome (greedySuffixes p s) (fun rest => k rest caps)
  | .seq a b, s, caps, k => mre a s caps (fun s2 c2 => mre b s2 c2 k)
  | .alt a b, s, caps, k =>
    match mre a s caps k with
    | some r => some r
    | none => mre b s caps k
  | .grp n r, s, caps, k =>
    mre r s caps (fun s2 c2 => k s2 ((n, s.take (s.length - s2.length)) :: c2))

/-- matchAt anchors r at the start of s, returning the rest of the input
and the captures of the (priority-first) match. -/
def matchAt (r : Re) (s : List Char) : Option (List Char × Caps) :=
  mre r s [] (fun rest caps => some (rest, caps))

/-- reSearch models re.search: the leftmost position admitting a match,
with the match length and captures. -/
def reSearch (r : Re) : List Char → Option (Nat × Nat × Caps)
  | [] =>
    match matchAt r [] with
    | some (rest, caps) => some (0, 0 - rest.length, caps)
    | none => none
  | c :: cs =>
    match matchAt r (c :: cs) with
    | some (rest, caps) => some (0, (c :: cs).length - rest.length, caps)
    | none =>
      match reSearch r cs with
      | some (p, len, caps) => some (p + 1, len, caps)
      | none => none

/-- reFindallAux models re.findall / re.finditer: repeated leftmost
search, resuming after each (non-overlapping) match; an empty match
advances one character, as in Python.  Fuel bounds the recursion; the
callers supply length-plus-one fuel, which is never exhausted because
every iteration consumes at least one character. -/
def reFindallAux (r : Re) : Nat → List Char → List Caps
  | 0, _ => []
  | fuel + 1, s =>
    match reSearch r s with
    | none => []
    | some (p, len, caps) => caps :: reFindallAux r fuel (s.drop (p + max len 1))

/-- reFindall collects the capture environments of all matches of r. -/
def reFindall (r : Re) (s : List Char) : List Caps :=
  reFindallAux r (s.length + 1) s

/-- isWordCh models the ASCII fragment of regex \w. -/
def isWordCh (c : Char) : Bool := c.isAlphanum || c = '_'

/-- isDigitCh models the ASCII fragment of regex \d. -/
def isDigitCh (c : Char) : Bool := c.isDigit

/-- isCardCh is the card-name class of card_pattern in _format_cards:
letters, whitespace, comma, apostrophe, hyphen. -/
def isCardCh (c : Char) : Bool :=
  c.isAlpha || isWsCh c || c = ',' || c = Char.ofNat 39 || c = '-'

/-- isCardCh2 is the card-name class of players_cards_pattern in
_format_cards: as isCardCh but without the apostrophe. -/
def isCardCh2 (c : Char) : Bool :=
  c.isAlpha || isWsCh c || c = ',' || c = '-'

/-- isNumCh is the numeric-metadata class of the card encodings. -/
def isNumCh (c : Char) : Bool := c.isDigit || c = ','

/-- notNl is the class matched by the regex dot (anything but newline). -/
def notNl (c : Char) : Bool := c != '\n'

/-- isDenyCh is the split class of _format_lines: control characters
(except tab, newline, carriage return), DEL through xFF, the decode
placeholder uFFFD, and the punctuation . braces | backslash = hash ^ > < $. -/
def isDenyCh (c : Char) : Bool :=
  c.toNat ≤ 8 || c.toNat = 11 || c.toNat = 12 ||
  (14 ≤ c.toNat && c.toNat ≤ 31) || (127 ≤ c.toNat && c.toNat ≤ 255) ||
  c = Char.ofNat 0xfffd || c = '.' || c = Char.ofNat 123 || c = Char.ofNat 125 ||
  c = '|' || c = Char.ofNat 92 || c = '=' || c = Char.ofNat 35 ||
  c = '^' || c = '>' || c = '<' || c = '$'

/-- rolledRe is the identifier pattern of _get_players. -/
def rolledRe : Re :=
  .seq (.lit (str "@P")) (.seq (.grp 1 (.plus isWordCh)) (.lit (str " rolled")))

/-- cardRe is card_pattern of _format_cards (group 1 is the card name). -/
def cardRe : Re :=
  .seq (.lit (str "@[")) (.seq (.grp 1 (.plus isCardCh))
    (.seq (.lit (str "@:")) (.seq (.plus isNumCh) (.lit (str ":@]")))))

/-- verbsRe is the action-verb alternation of players_cards_pattern,
tried left to right as Python does. -/
def verbsRe : Re :=
  .alt (.lit (str "casts")) (.alt (.lit (str "plays"))
    (.alt (.lit (str "discards")) (.alt (.lit (str "cycles")) (.lit (str "reveals")))))

/-- pcpRe is players_cards_pattern of _format_cards (group 1 the
identifier, group 2 the verb, group 3 the bracketed encoding, group 4
the card name). -/
def pcpRe : Re :=
  .seq (.lit (str "@P")) (.seq (.grp 1 (.plus isWordCh)) (.seq (.lit (str " "))
    (.seq (.grp 2 verbsRe) (.seq (.lit (str " "))
      (.grp 3 (.seq (.lit (str "@[")) (.seq (.grp 4 (.plus isCardCh2))
        (.seq (.lit (str "@:")) (.seq (.plus isNumCh) (.lit (str ":@]")))))))))))

/-- onPlayRe is the pattern of _get_on_play. -/
def onPlayRe : Re :=
  .seq (.grp 1 (.plus isWordCh)) (.lit (str " chooses to play first"))

/-- beginsRe is the starting-hand pattern of _get_starting_hands. -/
def beginsRe : Re :=
  .seq (.grp 1 (.plus notNl)) (.seq (.lit (str " begins the game with "))
    (.seq (.grp 2 (.plus isWordCh)) (.lit (str " cards"))))

/-- concededRe is the concession pattern of _get_winner. -/
def concededRe : Re :=
  .seq (.grp 1 (.plus isWordCh)) (.lit (str " has conceded"))

/-- winsRe is the direct-win pattern of _get_winner. -/
def winsRe : Re :=
  .seq (.grp 1 (.plus isWordCh)) (.lit (str " wins the game"))

/-- losesRe is the loss pattern of _get_winner. -/
def losesRe : Re :=
  .seq (.grp 1 (.plus isWordCh)) (.lit (str " loses the game"))

/-- turnRe is the turn-counter pattern of _get_last_turn. -/
def turnRe : Re :=
  .seq (.lit (str "Turn ")) (.grp 1 (.plus isDigitCh))

/-- numsDict is NUMS_DICT of MatchRecord. -/
def numsDict : Dict Nat :=
  [(str "one", 1), (str "two", 2), (str "three", 3), (str "four", 4),
   (str "five", 5), (str "six", 6), (str "seven", 7)]

/-- adictInsert is dictInsert for dicts with non-string keys (the
role-keyed dicts of the source). -/
def adictInsert {κ α : Type} [DecidableEq κ] (k : κ) (v : α) :
    List (κ × α) → List (κ × α)
  | [] => [(k, v)]
  | (k2, v2) :: d => if k2 = k then (k, v) :: d else (k2, v2) :: adictInsert k v d

/-- adictFind is dictFind for dicts with non-string keys. -/
def adictFind {κ α : Type} [DecidableEq κ] (k : κ) : List (κ × α) → Option α
  | [] => none
  | (k2, v2) :: d => if k2 = k then some v2 else adictFind k d

/-- rolledNames models set(re.findall(rolled pattern, match_log)): the
distinct identifiers (List.dedup keeps one occurrence of each); the
iteration order of the Python set is modelled by the explicit order
parameter of the pipeline, any permutation being faithful. -/
def rolledNames (text : Str) : List Str :=
  ((reFindall rolledRe text).map (fun c => capGetD c 1)).dedup

/-- getPlayers models MatchRecord._get_players.  order models Python set
iteration (list(players)); pref models the optional player argument, and
an empty preferred name is falsy in Python, so it selects the unpacking
branch exactly as None does.  The dict records the opponent first and
the player second, as the source assigns them. -/
def getPlayers (order : List Str → List Str) (text : Str) (pref : Option Str) :
    Except PyErr (Dict Role) :=
  let names := rolledNames text
  if pref = none ∨ pref = some [] then
    match order names with
    | [a, b] => .ok (dictInsert a .player (dictInsert b .opponent []))
    | _ => .error .valueError
  else
    match pref with
    | none => .error .valueError
    | some p =>
      match order (names.erase p) with
      | [] => .error .indexError
      | o :: _ => .ok (dictInsert p .player (dictInsert o .opponent []))

/-- CardSets is the cards_played value: one set of card names per role.
Python keeps sets and converts them to lists; the model keeps the
first-insertion-order list as the representative of the set (no claim
depends on the list order). -/
structure CardSets where
  player : List Str
  opponent : List Str
deriving DecidableEq, Repr

/-- setAdd models set.add on the list representative. -/
def setAdd (x : Str) (s : List Str) : List Str :=
  if x ∈ s then s else s ++ [x]

/-- collectCards folds the players_cards_pattern matches into the two
card sets; an identifier outside the role map raises KeyError exactly
where the source subscripts self.players. -/
def collectCards (pm : Dict Role) : List Caps → CardSets → Except PyErr CardSets
  | [], acc => .ok acc
  | m :: ms, acc =>
    match dictFind (capGetD m 1) pm with
    | none => .error .keyError
    | some .player =>
      collectCards pm ms { acc with player := setAdd (capGetD m 4) acc.player }
    | some .opponent =>
      collectCards pm ms { acc with opponent := setAdd (capGetD m 4) acc.opponent }

/-- subCardAux models re.sub(card_pattern, group 1, s): a single left to
right pass replacing each non-overlapping match by its card name.  Every
cardRe match consumes at least one character (it starts with a literal),
so the fuel of the callers is never exhausted. -/
def subCardAux : Nat → List Char → List Char
  | 0, s => s
  | fuel + 1, s =>
    match reSearch cardRe s with
    | none => s
    | some (p, len, caps) =>
      s.take p ++ capGetD caps 1 ++ subCardAux fuel (s.drop (p + len))

/-- subCard is the bracket rewrite applied by _format_cards. -/
def subCard (s : List Char) : List Char := subCardAux (s.length + 1) s

/-- formatCards models MatchRecord._format_cards: collect the cards each
role has played, then rewrite every bracketed card reference to its
plain name. -/
def formatCards (pm : Dict Role) (text : Str) : Except PyErr (CardSets × Str) :=
  match collectCards pm (reFindall pcpRe text) ⟨[], []⟩ with
  | .error e => .error e
  | .ok cards => .ok (cards, subCard text)

/-- lastAtPEnd finds the index just past the last occurrence of the two
characters at-P in the given segment. -/
def lastAtPEnd : List Char → Option Nat
  | [] => none
  | [_] => none
  | x :: y :: t =>
    match lastAtPEnd (y :: t) with
    | some k => some (k + 1)
    | none => if x = '@' ∧ y = 'P' then some 2 else none

/-- stripAtP models re.sub on the anchored pattern caret dot-star at-P
with the empty replacement: the anchor restricts the single match to
position 0 and the greedy dot (which cannot cross a newline) extends it
to the last at-P occurrence lying before the first newline; that prefix
is removed, and a line with no such occurrence is unchanged. -/
def stripAtP (l : List Char) : List Char :=
  match lastAtPEnd (l.takeWhile notNl) with
  | none => l
  | some k => l.drop k

/-- formatLines models MatchRecord._format_lines: split on the denylist
class, strip each fragment through the last at-P marker of its leading
segment, and drop fragments of length at most 3. -/
def formatLines (text : Str) : List Str :=
  ((resplit isDenyCh text).map stripAtP).filter (fun l => 3 < l.length)

/-- ctpMarker is the game-start test of _get_games: the code checks the
substring chooses-to-play, not the full chooses-to-play-first phrase. -/
def ctpMarker : Str := str "chooses to play"

/-- ctpfMarker is the full marker phrase named by the specification. -/
def ctpfMarker : Str := str "chooses to play first"

/-- getGames models MatchRecord._get_games: scan the lines with their
indices, closing the accumulating slice at every line containing the
marker; append the final slice without the last line of the sequence
(match_log from game_i to minus one); drop the first accumulated slice
(the preamble). -/
def getGames (lines : List Str) : List (List Str) :=
  let fd := (List.enumFrom 0 lines).foldl
    (fun acc pr =>
      if subStr ctpMarker pr.2 then
        (acc.1 ++ [(lines.drop acc.2).take (pr.1 - acc.2)], pr.1)
      else acc)
    (([] : List (List Str)), 0)
  (fd.1 ++ [(lines.drop fd.2).dropLast]).tail

/-- getOnPlay models MatchRecord._get_on_play: search the first line of
the slice (IndexError on an empty slice), take group 1 (AttributeError
when search returns None), and map it through the role dict (KeyError
when absent). -/
def getOnPlay (pm : Dict Role) (game : List Str) : Except PyErr Role :=
  match game with
  | [] => .error .indexError
  | l0 :: _ =>
    match reSearch onPlayRe l0 with
    | none => .error .attributeError
    | some (_, _, caps) =>
      match dictFind (capGetD caps 1) pm with
      | none => .error .keyError
      | some r => .ok r

/-- shPairs is the comprehension of _get_starting_hands: for each line
whose search matches, pair the role of the first whitespace token of
group 1 with the number word of group 2, in line order; subscripting an
empty split raises IndexError and an unknown identifier KeyError. -/
def shPairs (pm : Dict Role) : List Str → Except PyErr (List (Role × Str))
  | [] => .ok []
  | l :: ls =>
    match reSearch beginsRe l with
    | none => shPairs pm ls
    | some (_, _, caps) =>
      match pySplitWs (capGetD caps 1) with
      | [] => .error .indexError
      | tok :: _ =>
        match dictFind tok pm with
        | none => .error .keyError
        | some r =>
          match shPairs pm ls with
          | .error e => .error e
          | .ok rest => .ok ((r, capGetD caps 2) :: rest)

/-- numsMap is the NUMS_DICT value replacement loop of
_get_starting_hands: an unknown number word raises KeyError. -/
def numsMap : List (Role × Str) → Except PyErr (List (Role × Nat))
  | [] => .ok []
  | (r, w) :: d =>
    match dictFind w numsDict with
    | none => .error .keyError
    | some n =>
      match numsMap d with
      | .error e => .error e
      | .ok rest => .ok ((r, n) :: rest)

/-- getStartingHands models MatchRecord._get_starting_hands: build the
dict from the pairs (a later pair for the same role overwrites, which is
how a mulligan line supersedes the first hand) and map the number words
through NUMS_DICT. -/
def getStartingHands (pm : Dict Role) (game : List Str) :
    Except PyErr (List (Role × Nat)) :=
  match shPairs pm game with
  | .error e => .error e
  | .ok pairs => numsMap (pairs.foldl (fun acc pr => adictInsert pr.1 pr.2 acc) [])

/-- getWinner models MatchRecord._get_winner on the space-joined slice:
wins-the-game decides directly, then has-conceded and loses-the-game
give the opposite role; when no pattern matches the source queries the
operator, modelled by the oracle op (the validated answer the input
retry loop eventually accepts). -/
def getWinner (op : List Str → Outcome) (pm : Dict Role) (game : List Str) :
    Except PyErr Outcome :=
  let j := joinWith ' ' game
  match reSearch winsRe j with
  | some (_, _, caps) =>
    match dictFind (capGetD caps 1) pm with
    | none => .error .keyError
    | some r => .ok (roleOutcome r)
  | none =>
    match reSearch concededRe j with
    | some (_, _, caps) =>
      match dictFind (capGetD caps 1) pm with
      | none => .error .keyError
      | some .player => .ok .opponent
      | some .opponent => .ok .player
    | none =>
      match reSearch losesRe j with
      | some (_, _, caps) =>
        match dictFind (capGetD caps 1) pm with
        | none => .error .keyError
        | some .player => .ok .opponent
        | some .opponent => .ok .player
      | none => .ok (op game)

/-- getLastTurn models MatchRecord._get_last_turn: the last Turn-n match
of the joined slice; with no match the loop variable is unbound and the
source raises (UnboundLocalError, a NameError). -/
def getLastTurn (game : List Str) : Except PyErr Nat :=
  match (reFindall turnRe (joinWith ' ' game)).getLast? with
  | none => .error .nameError
  | some caps => .ok (parseNat (capGetD caps 1))

/-- GameRec is one entry of records of games. -/
structure GameRec where
  game_n : Nat
  on_play : Role
  starting_hands : List (Role × Nat)
  winner : Outcome
  last_turn : Nat
deriving DecidableEq, Repr

/-- extractGame builds the record of one game in the field order of the
source loop (game_n, on_play, starting_hands, winner, last_turn); the
first raising extractor aborts. -/
def extractGame (op : List Str → Outcome) (pm : Dict Role) (i : Nat)
    (game : List Str) : Except PyErr GameRec :=
  match getOnPlay pm game with
  | .error e => .error e
  | .ok onp =>
    match getStartingHands pm game with
    | .error e => .error e
    | .ok sh =>
      match getWinner op pm game with
      | .error e => .error e
      | .ok w =>
        match getLastTurn game with
        | .error e => .error e
        | .ok lt => .ok ⟨i + 1, onp, sh, w, lt⟩

/-- gamesLoop is the enumerate loop of __init__ over the game slices;
the first raising slice aborts the construction. -/
def gamesLoop (op : List Str → Outcome) (pm : Dict Role) :
    Nat → List (List Str) → Except PyErr (List GameRec)
  | _, [] => .ok []
  | i, g :: gs =>
    match extractGame op pm i g with
    | .error e => .error e
    | .ok gr =>
      match gamesLoop op pm (i + 1) gs with
      | .error e => .error e
      | .ok rest => .ok (gr :: rest)

/-- Records is the assembled output record (the date field, file
modification time, lies outside the text-to-record function). -/
structure Records where
  players : List (Role × Str)
  cards_played : CardSets
  id_match : Str
  games : List GameRec
deriving DecidableEq, Repr

/-- PipeResult is the observable outcome of building a MatchRecord:
crash is an exception escaping __init__, absent is records set to None
(get_json returns None), record is a completed record. -/
inductive PipeResult : Type
  | crash : PyErr → PipeResult
  | absent : PipeResult
  | record : Records → PipeResult
deriving DecidableEq, Repr

/-- invertPlayers is records of players: dict((v, k) for k, v in
players.items()), iterated in dict insertion order. -/
def invertPlayers (pm : Dict Role) : List (Role × Str) :=
  pm.foldl (fun acc kv => adictInsert kv.2 kv.1 acc) []

/-- matchRecord models MatchRecord.__init__ followed by get_json: only
_get_players is guarded by the try/except (IndexError, ValueError); a
match with fewer than two segmented games is absent; every other
exception escapes to the caller as a crash. -/
def matchRecord (order : List Str → List Str) (op : List Str → Outcome)
    (text : Str) (pref : Option Str) : PipeResult :=
  match getPlayers order text pref with
  | .error .valueError => .absent
  | .error .indexError => .absent
  | .error e => .crash e
  | .ok pm =>
    match formatCards pm text with
    | .error e => .crash e
    | .ok (cards, rewritten) =>
      let lines := formatLines rewritten
      let games := getGames lines
      if games.length < 2 then .absent
      else
        match lines with
        | [] => .crash .indexError
        | l0 :: _ =>
          match gamesLoop op pm 0 games with
          | .error e => .crash e
          | .ok gs => .record ⟨invertPlayers pm, cards, l0, gs⟩

/-- opUnknown is the constant operator oracle used by concrete
instantiations. -/
def opUnknown : List Str → Outcome := fun _ => .unknown

/-- ordId is the identity set-iteration order used by concrete
instantiations. -/
def ordId : List Str → List Str := fun l => l

/-- ordRev is the reversed set-iteration order, equally faithful to an
unordered set. -/
def ordRev : List Str → List Str := fun l => l.reverse


/-- Except equality is decidable componentwise (needed to state concrete
evaluations of the fallible stages). -/
instance {e a : Type} [DecidableEq e] [DecidableEq a] : DecidableEq (Except e a) := fun x y =>
  match x, y with
  | .ok v, .ok w =>
    if h : v = w then .isTrue (congrArg Except.ok h)
    else .isFalse (fun he => h (Except.ok.inj he))
  | .error v, .error w =>
    if h : v = w then .isTrue (congrArg Except.error h)
    else .isFalse (fun he => h (Except.error.inj he))
  | .ok _, .error _ => .isFalse (fun he => Except.noConfusion he)
  | .error _, .ok _ => .isFalse (fun he => Except.noConfusion he)

/-- isRecordRes discriminates the completed-record outcome. -/
def isRecordRes : PipeResult → Bool
  | .record _ => true
  | _ => false

/-- resPlayers projects the players field of a completed record. -/
def resPlayers : PipeResult → Option (List (Role × Str))
  | .record r => some r.players
  | _ => none

/-- tC1bad is a log with exactly two rolled identifiers and two
chooses-to-play-first lines whose first game slice has no Turn marker. -/
def tC1bad : Str :=
  str "idline.@PA rolled.@PB rolled.A chooses to play first.A wins the game.A chooses to play first.A wins the game.trail line"

/-- tC2bad is a log with a single rolled identifier that still yields a
complete record when a preferred name is supplied. -/
def tC2bad : Str :=
  str "idline.@PA rolled.A chooses to play first.A wins the game.Turn 1.A chooses to play first.A wins the game.Turn 2.trail"

/-- tC3bad is a log with exactly two rolled identifiers, used with a
preferred name that is neither of them. -/
def tC3bad : Str :=
  str "idline.@PA rolled.@PB rolled.A chooses to play first.A begins the game with seven cards.A wins the game.Turn 1.A chooses to play first.A wins the game.Turn 2.trail"

/-- lC4bad is a filtered line sequence with one chooses-to-play-first
line and one line containing chooses-to-play without first. -/
def lC4bad : List Str :=
  [str "idline!", str "A chooses to play first", str "B chooses to play second", str "tail line"]

/-- pmC6 is the resolved role map used by the C6 counterexample. -/
def pmC6 : Dict Role := [(str "B", .opponent), (str "A", .player)]

/-- tC6bad contains a recorded play of the card AB and elsewhere a nested
bracket encoding that the single rewrite pass turns into a fresh
bracketed encoding of AB. -/
def tC6bad : Str :=
  str "@PA rolled.@PB rolled.@PA casts @[AB@:1:@] @[@[A@:1:@]B@:2:@]"

/-- tC7bad is a single fragment with no denylist character containing a
participant marker after an embedded newline. -/
def tC7bad : Str := str "abcd\n@Pxyz"

/-- tC9 is a log fragment with two rolled identifiers. -/
def tC9 : Str := str "@PA rolled @PB rolled"

/-- C1 counterexample: tC1bad has exactly two distinct roll-pattern
identifiers and exactly two chooses-to-play-first lines in its filtered
sequence, yet the pipeline does not yield a non-absent record: the first
game slice has no Turn marker, so _get_last_turn raises and the
exception escapes the constructor. -/
theorem c1_counterexample :
    (rolledNames tC1bad).length = 2 ∧
    ((formatLines (subCard tC1bad)).countP (fun l => subStr ctpfMarker l)) = 2 ∧
    matchRecord ordId opUnknown tC1bad none = .crash .nameError := by
  decide

/-- C2 counterexample: tC2bad has a single roll-pattern identifier (not
exactly two), yet with a caller-supplied preferred name the pipeline
yields a completed record instead of the absent value: _get_players
silently accepts the unmatched preferred name. -/
theorem c2_counterexample :
    (rolledNames tC2bad).length = 1 ∧
    isRecordRes (matchRecord ordId opUnknown tC2bad (some (str "B"))) = true := by
  decide

/-- C3 evaluation at the failing input: tC3bad has exactly two distinct
roll identifiers, the preferred name C is neither of them, yet the
pipeline yields a completed record that fabricates C as the player
instead of the absent record the specification requires. -/
theorem c3_bug_eval :
    (rolledNames tC3bad).length = 2 ∧
    ((rolledNames tC3bad).contains (str "C")) = false ∧
    resPlayers (matchRecord ordId opUnknown tC3bad (some (str "C"))) =
      some [(.opponent, str "A"), (.player, str "C")] := by
  decide

/-- C4 counterexample: in lC4bad the line B-chooses-to-play-second does
not contain the phrase chooses-to-play-first, yet _get_games opens a new
game slice at it, because the code tests the shorter substring
chooses-to-play. -/
theorem c4_counterexample :
    getGames lC4bad =
      [[str "A chooses to play first"], [str "B chooses to play second"]] ∧
    subStr ctpfMarker (str "B chooses to play second") = false := by
  decide

/-- C6 counterexample: in tC6bad the card name AB is recorded into the
player card set, yet the rewritten text still contains a bracketed
card-reference encoding of AB: the single left-to-right rewrite pass
assembles a fresh encoding from the nested brackets. -/
theorem c6_counterexample :
    formatCards pmC6 tC6bad = .ok (⟨[str "AB"], []⟩, subCard tC6bad) ∧
    subStr (str "@[AB@:2:@]") (subCard tC6bad) = true := by
  decide

/-- C7 counterexample: the filtered output of tC7bad is a single line
that still contains the participant-marker token at-P (after an embedded
newline, which the split class does not cut and the anchored strip
cannot cross), contradicting the claim that already-filtered lines
contain no such occurrence. -/
theorem c7_counterexample :
    formatLines tC7bad = [str "abcd\n@Pxyz"] ∧
    subStr (str "@P") (str "abcd\n@Pxyz") = true := by
  decide

/-- C9 counterexample: both ordId and ordRev enumerate the identifier
set of tC9 (each output is a permutation of the collected distinct
identifiers), yet the two runs assign the roles to different
identifiers: the resolver is not a function of the input text alone. -/
theorem c9_counterexample :
    (ordRev (rolledNames tC9)).Perm (rolledNames tC9) ∧
    getPlayers ordId tC9 none ≠ getPlayers ordRev tC9 none := by
  decide

/-- isPrefixOf on character lists is the existence of a completing tail. -/
theorem isPrefixOf_exists : ∀ (l s : List Char), l.isPrefixOf s = true ↔ ∃ t, s = l ++ t
  | [], s => by simp [List.isPrefixOf]
  | a :: as, [] => by
    simp only [List.isPrefixOf]
    constructor
    · intro h; exact absurd h (by simp)
    · rintro ⟨t, ht⟩; exact absurd ht (by simp)
  | a :: as, b :: bs => by
    simp only [List.isPrefixOf, Bool.and_eq_true, beq_iff_eq]
    rw [isPrefixOf_exists as bs]
    constructor
    · rintro ⟨rfl, t, rfl⟩; exact ⟨t, rfl⟩
    · rintro ⟨t, ht⟩
      injection ht with h1 h2
      exact ⟨h1.symm, t, h2⟩

/-- firstSome yields a success of f on a member of the list. -/
theorem firstSome_some {α β : Type} : ∀ {l : List α} {f : α → Option β} {b : β},
    firstSome l f = some b → ∃ x, x ∈ l ∧ f x = some b
  | [], _, _, h => by simp [firstSome] at h
  | a :: as, f, b, h => by
    rw [firstSome] at h
    cases hf : f a with
    | some c => rw [hf] at h; exact ⟨a, List.mem_cons_self a as, hf.trans h⟩
    | none =>
      rw [hf] at h
      obtain ⟨x, hx, hfx⟩ := firstSome_some h
      exact ⟨x, List.mem_cons_of_mem a hx, hfx⟩

/-- firstSome over an appended list tries the left part first. -/
theorem firstSome_append {α β : Type} :
    ∀ (l1 l2 : List α) (f : α → Option β),
    firstSome (l1 ++ l2) f =
      match firstSome l1 f with
      | some b => some b
      | none => firstSome l2 f
  | [], l2, f => by simp [firstSome]
  | a :: as, l2, f => by
    rw [List.cons_append, firstSome, firstSome]
    cases f a with
    | some b => simp
    | none => simpa using firstSome_append as l2 f

/-- firstSome is none when f fails on every member. -/
theorem firstSome_none {α β : Type} : ∀ {l : List α} {f : α → Option β},
    (∀ x ∈ l, f x = none) → firstSome l f = none
  | [], _, _ => rfl
  | a :: as, f, h => by
    rw [firstSome, h a (List.mem_cons_self a as)]
    exact firstSome_none (fun x hx => h x (List.mem_cons_of_mem a hx))

/-- greedySuffixes members are rests of the input after a run in p. -/
theorem greedySuffixes_sound {p : Char → Bool} :
    ∀ {s r : List Char}, r ∈ greedySuffixes p s →
    ∃ a, s = a ++ r ∧ ∀ c ∈ a, p c = true
  | [], r, h => by
    simp [greedySuffixes] at h
    exact ⟨[], by simp [h]⟩
  | c :: cs, r, h => by
    rw [greedySuffixes] at h
    by_cases hc : p c = true
    · rw [if_pos hc, List.mem_append] at h
      rcases h with h | h
      · obtain ⟨a, rfl, ha⟩ := greedySuffixes_sound h
        refine ⟨c :: a, rfl, ?_⟩
        intro x hx
        rcases List.mem_cons.1 hx with rfl | hx
        · exact hc
        · exact ha x hx
      · simp at h
        exact ⟨[], by simp [h]⟩
    · rw [if_neg hc] at h
      simp at h
      exact ⟨[], by simp [h]⟩

/-- plusSuffixes members are rests after a nonempty run in p. -/
theorem plusSuffixes_sound {p : Char → Bool} {s r : List Char}
    (h : r ∈ plusSuffixes p s) :
    ∃ a, s = a ++ r ∧ a ≠ [] ∧ ∀ c ∈ a, p c = true := by
  cases s with
  | nil => simp [plusSuffixes] at h
  | cons c cs =>
    rw [plusSuffixes] at h
    by_cases hc : p c = true
    · rw [if_pos hc] at h
      obtain ⟨a, rfl, ha⟩ := greedySuffixes_sound h
      refine ⟨c :: a, rfl, by simp, ?_⟩
      intro x hx
      rcases List.mem_cons.1 hx with rfl | hx
      · exact hc
      · exact ha x hx
    · rw [if_neg hc] at h
      simp at h

/-- greedySuffixes of a run followed by b lists the candidates of b
first, then the candidates that keep part of the run. -/
theorem greedySuffixes_append {p : Char → Bool} :
    ∀ {a : List Char} (b : List Char), (∀ c ∈ a, p c = true) →
    ∃ ext, greedySuffixes p (a ++ b) = greedySuffixes p b ++ ext ∧
      ∀ r ∈ ext, ∃ a1 a2, a = a1 ++ a2 ∧ a2 ≠ [] ∧ r = a2 ++ b
  | [], b, _ => ⟨[], by simp, by simp⟩
  | c :: a0, b, h => by
    obtain ⟨ext, he, hp⟩ := greedySuffixes_append (a := a0) b
      (fun x hx => h x (List.mem_cons_of_mem c hx))
    refine ⟨ext ++ [c :: (a0 ++ b)], ?_, ?_⟩
    · rw [List.cons_append, greedySuffixes, if_pos (h c (List.mem_cons_self c a0)), he,
        List.append_assoc]
    · intro r hr
      rcases List.mem_append.1 hr with hr | hr
      · obtain ⟨a1, a2, rfl, hne, rfl⟩ := hp r hr
        exact ⟨c :: a1, a2, rfl, hne, rfl⟩
      · simp at hr
        exact ⟨[], c :: a0, rfl, by simp, by simp [hr]⟩

/-- plusSuffixes of a nonempty run followed by b lists the candidates of
b first. -/
theorem plusSuffixes_append {p : Char → Bool} {a : List Char} (b : List Char)
    (ha : a ≠ []) (h : ∀ c ∈ a, p c = true) :
    ∃ ext, plusSuffixes p (a ++ b) = greedySuffixes p b ++ ext ∧
      ∀ r ∈ ext, ∃ a1 a2, a = a1 ++ a2 ∧ a2 ≠ [] ∧ r = a2 ++ b := by
  cases a with
  | nil => exact absurd rfl ha
  | cons c a0 =>
    obtain ⟨ext, he, hp⟩ := greedySuffixes_append (a := a0) b
      (fun x hx => h x (List.mem_cons_of_mem c hx))
    refine ⟨ext, ?_, ?_⟩
    · rw [List.cons_append, plusSuffixes, if_pos (h c (List.mem_cons_self c a0)), he]
    · intro r hr
      obtain ⟨a1, a2, rfl, hne, rfl⟩ := hp r hr
      exact ⟨c :: a1, a2, rfl, hne, rfl⟩

/-- greedySuffixes stops immediately when the head is outside the class. -/
theorem greedySuffixes_stop {p : Char → Bool} {b : List Char}
    (hb : ∀ c, b.head? = some c → p c = false) :
    greedySuffixes p b = [b] := by
  cases b with
  | nil => rfl
  | cons c cs =>
    rw [greedySuffixes, if_neg]
    rw [hb c rfl]
    simp

/-- mre on a sequence is the first regex run with the second in the
continuation (definitional). -/
theorem mre_seq (r1 r2 : Re) (s : List Char) (caps : Caps)
    (k : List Char → Caps → Option (List Char × Caps)) :
    mre (.seq r1 r2) s caps k = mre r1 s caps (fun s2 c2 => mre r2 s2 c2 k) := rfl

/-- mre on a group records the consumed span in the environment
(definitional). -/
theorem mre_grp (n : Nat) (r : Re) (s : List Char) (caps : Caps)
    (k : List Char → Caps → Option (List Char × Caps)) :
    mre (.grp n r) s caps k =
      mre r s caps (fun s2 c2 => k s2 ((n, s.take (s.length - s2.length)) :: c2)) := rfl

/-- mre on a literal succeeds exactly on a completing tail. -/
theorem mre_lit_some {l s : List Char} {caps : Caps}
    {k : List Char → Caps → Option (List Char × Caps)} {res : List Char × Caps}
    (h : mre (.lit l) s caps k = some res) :
    ∃ t, s = l ++ t ∧ k t caps = some res := by
  rw [mre] at h
  by_cases hp : l.isPrefixOf s = true
  · obtain ⟨t, rfl⟩ := (isPrefixOf_exists l s).1 hp
    rw [if_pos hp] at h
    exact ⟨t, rfl, by simpa [List.drop_left] using h⟩
  · rw [if_neg hp] at h
    exact absurd h (by simp)

/-- mre on a literal fails when the heads differ. -/
theorem mre_lit_head_ne {h0 : Char} {l : List Char} {c : Char} {t : List Char}
    {caps : Caps} {k : List Char → Caps → Option (List Char × Caps)}
    (hne : (h0 == c) = false) :
    mre (.lit (h0 :: l)) (c :: t) caps k = none := by
  rw [mre, List.isPrefixOf, hne]
  simp

/-- mre on a greedy plus succeeds through a nonempty class run. -/
theorem mre_plus_some {p : Char → Bool} {s : List Char} {caps : Caps}
    {k : List Char → Caps → Option (List Char × Caps)} {res : List Char × Caps}
    (h : mre (.plus p) s caps k = some res) :
    ∃ a b, s = a ++ b ∧ a ≠ [] ∧ (∀ c ∈ a, p c = true) ∧ k b caps = some res := by
  rw [mre] at h
  obtain ⟨x, hx, hfx⟩ := firstSome_some h
  obtain ⟨a, rfl, hne, ha⟩ := plusSuffixes_sound hx
  exact ⟨a, x, rfl, hne, ha, hfx⟩

/-- mre on a greedy star succeeds through a possibly empty class run. -/
theorem mre_star_some {p : Char → Bool} {s : List Char} {caps : Caps}
    {k : List Char → Caps → Option (List Char × Caps)} {res : List Char × Caps}
    (h : mre (.star p) s caps k = some res) :
    ∃ a b, s = a ++ b ∧ (∀ c ∈ a, p c = true) ∧ k b caps = some res := by
  rw [mre] at h
  obtain ⟨x, hx, hfx⟩ := firstSome_some h
  obtain ⟨a, rfl, ha⟩ := greedySuffixes_sound hx
  exact ⟨a, x, rfl, ha, hfx⟩

/-- mre on an alternation succeeds through one branch. -/
theorem mre_alt_some {r1 r2 : Re} {s : List Char} {caps : Caps}
    {k : List Char → Caps → Option (List Char × Caps)} {res : List Char × Caps}
    (h : mre (.alt r1 r2) s caps k = some res) :
    mre r1 s caps k = some res ∨ mre r2 s caps k = some res := by
  rw [mre] at h
  cases h1 : mre r1 s caps k with
  | some v =>
    rw [h1] at h
    exact Or.inl h
  | none =>
    rw [h1] at h
    exact Or.inr h

/-- mre on a one-character class consumes exactly one class character. -/
theorem mre_cls_some {p : Char → Bool} {s : List Char} {caps : Caps}
    {k : List Char → Caps → Option (List Char × Caps)} {res : List Char × Caps}
    (h : mre (.cls p) s caps k = some res) :
    ∃ c b, s = c :: b ∧ p c = true ∧ k b caps = some res := by
  cases s with
  | nil => rw [mre] at h; exact absurd h (by simp)
  | cons c b =>
    rw [mre] at h
    by_cases hc : p c = true
    · rw [if_pos hc] at h; exact ⟨c, b, rfl, hc, h⟩
    · rw [if_neg hc] at h; exact absurd h (by simp)

/-- mre_plus_exact: when the text is a maximal class run followed by a
rest the continuation accepts, the greedy plus hands the continuation
exactly that rest (the first candidate). -/
theorem mre_plus_exact {p : Char → Bool} {a b : List Char} {caps : Caps}
    {k : List Char → Caps → Option (List Char × Caps)}
    (ha : a ≠ []) (h : ∀ c ∈ a, p c = true)
    (hb : ∀ c, b.head? = some c → p c = false)
    (hk : (k b caps).isSome = true) :
    mre (.plus p) (a ++ b) caps k = k b caps := by
  rw [mre]
  obtain ⟨ext, he, _⟩ := plusSuffixes_append b ha h
  rw [he, greedySuffixes_stop hb, List.cons_append, firstSome]
  cases hkv : k b caps with
  | some v => rfl
  | none => rw [hkv] at hk; simp at hk

/-- reSearch on the empty input (definitional equation). -/
theorem reSearch_nil (r : Re) :
    reSearch r [] =
      match matchAt r [] with
      | some (rest, caps) => some (0, 0 - rest.length, caps)
      | none => none := rfl

/-- reSearch on a nonempty input (definitional equation). -/
theorem reSearch_cons (r : Re) (c : Char) (cs : List Char) :
    reSearch r (c :: cs) =
      match matchAt r (c :: cs) with
      | some (rest, caps) => some (0, (c :: cs).length - rest.length, caps)
      | none =>
        match reSearch r cs with
        | some (p, len, caps) => some (p + 1, len, caps)
        | none => none := rfl

/-- reSearch succeeds at position 0 when the whole input matches. -/
theorem reSearch_matchAt {r : Re} {s rest : List Char} {caps : Caps}
    (hm : matchAt r s = some (rest, caps)) :
    reSearch r s = some (0, s.length - rest.length, caps) := by
  cases s with
  | nil => rw [reSearch_nil, hm]; rfl
  | cons c cs => rw [reSearch_cons, hm]

/-- reSearch soundness: a search hit is an anchored match at the
reported position. -/
theorem reSearch_sound {r : Re} :
    ∀ {s : List Char} {p len : Nat} {caps : Caps},
    reSearch r s = some (p, len, caps) →
    ∃ s1 s2 rest, s = s1 ++ s2 ∧ s1.length = p ∧
      matchAt r s2 = some (rest, caps) ∧ len = s2.length - rest.length := by
  intro s
  induction s with
  | nil =>
    intro p len caps h
    rw [reSearch_nil] at h
    cases hm : matchAt r [] with
    | some v =>
      obtain ⟨rest, caps2⟩ := v
      rw [hm] at h
      have h2 : some (0, (0 : Nat) - rest.length, caps2) = some (p, len, caps) := h
      simp only [Option.some.injEq, Prod.mk.injEq] at h2
      obtain ⟨h1, h3, rfl⟩ := h2
      exact ⟨[], [], rest, rfl, h1, hm, by simpa using h3.symm⟩
    | none =>
      rw [hm] at h
      exact absurd h (by simp)
  | cons c cs ih =>
    intro p len caps h
    rw [reSearch_cons] at h
    cases hm : matchAt r (c :: cs) with
    | some v =>
      obtain ⟨rest, caps2⟩ := v
      rw [hm] at h
      have h2 : some (0, (c :: cs).length - rest.length, caps2) = some (p, len, caps) := h
      simp only [Option.some.injEq, Prod.mk.injEq] at h2
      obtain ⟨h1, h3, rfl⟩ := h2
      exact ⟨[], c :: cs, rest, rfl, h1, hm, h3.symm⟩
    | none =>
      rw [hm] at h
      have h2 :
          (match reSearch r cs with
            | some (p, len, caps) => some (p + 1, len, caps)
            | none => none) = some (p, len, caps) := h
      cases hs : reSearch r cs with
      | some v =>
        obtain ⟨p2, len2, caps2⟩ := v
        rw [hs] at h2
        have h3 : some (p2 + 1, len2, caps2) = some (p, len, caps) := h2
        simp only [Option.some.injEq, Prod.mk.injEq] at h3
        obtain ⟨h4, h5, rfl⟩ := h3
        obtain ⟨s1, s2, rest, rfl, hl, hm2, hlen⟩ := ih hs
        exact ⟨c :: s1, s2, rest, rfl, by simp [hl, h4], hm2, by rw [← h5, hlen]⟩
      | none =>
        rw [hs] at h2
        exact absurd h2 (by simp)

/-- reSearch completeness with a position bound: if some suffix matches,
the search succeeds no later than there. -/
theorem reSearch_le {r : Re} :
    ∀ (s1 s2 : List Char), matchAt r s2 ≠ none →
    ∃ p len caps, reSearch r (s1 ++ s2) = some (p, len, caps) ∧ p ≤ s1.length
  | [], s2, h => by
    cases hm : matchAt r s2 with
    | some v =>
      obtain ⟨rest, caps⟩ := v
      exact ⟨0, s2.length - rest.length, caps, by rw [List.nil_append, reSearch_matchAt hm],
        Nat.zero_le _⟩
    | none => exact absurd hm h
  | c :: s1, s2, h => by
    rw [List.cons_append]
    cases hm : matchAt r (c :: (s1 ++ s2)) with
    | some v =>
      obtain ⟨rest, caps⟩ := v
      exact ⟨0, _, caps, reSearch_matchAt hm, Nat.zero_le _⟩
    | none =>
      obtain ⟨p, len, caps, hs, hp⟩ := reSearch_le s1 s2 h
      refine ⟨p + 1, len, caps, ?_, by simpa using Nat.succ_le_succ hp⟩
      rw [reSearch_cons, hm, hs]

/-- reFindallAux soundness: every collected capture environment comes
from an anchored match on some suffix of the input. -/
theorem reFindallAux_sound {r : Re} :
    ∀ {fuel : Nat} {s : List Char} {caps : Caps},
    caps ∈ reFindallAux r fuel s →
    ∃ s1 s2 rest, s = s1 ++ s2 ∧ matchAt r s2 = some (rest, caps)
  | 0, s, caps => by intro h; simp [reFindallAux] at h
  | fuel + 1, s, caps => by
    intro h
    rw [reFindallAux] at h
    cases hs : reSearch r s with
    | none => rw [hs] at h; simp at h
    | some v =>
      rw [hs] at h
      obtain ⟨p, len, caps2⟩ := v
      rcases List.mem_cons.1 h with rfl | h
      · obtain ⟨s1, s2, rest, rfl, _, hm, _⟩ := reSearch_sound hs
        exact ⟨s1, s2, rest, rfl, hm⟩
      · obtain ⟨s1, s2, rest, heq, hm⟩ := reFindallAux_sound h
        refine ⟨s.take (p + max len 1) ++ s1, s2, rest, ?_, hm⟩
        rw [List.append_assoc, ← heq, List.take_append_drop]

/-- reFindall soundness. -/
theorem reFindall_sound {r : Re} {s : List Char} {caps : Caps}
    (h : caps ∈ reFindall r s) :
    ∃ s1 s2 rest, s = s1 ++ s2 ∧ matchAt r s2 = some (rest, caps) :=
  reFindallAux_sound h

/-- otherRoleOutcome is the outcome opposite to a role (the conceded and
loses branches of _get_winner). -/
def otherRoleOutcome : Role → Outcome
  | .player => .opponent
  | .opponent => .player

/-- pmAB is the role map resolving A to player and B to opponent, used
by concrete witnesses. -/
def pmAB : Dict Role := [(str "B", .opponent), (str "A", .player)]

/-- C5: the winner of a game slice is decided by the three patterns in
priority order on the space-joined slice text: a wins-the-game match
gives that identifier's role directly, even if a conceded or loses
phrase is also present (no hypothesis excludes them); otherwise a
has-conceded match gives the opposite role; otherwise a loses-the-game
match gives the opposite role. -/
theorem c5_winner_priority (op : List Str → Outcome) (pm : Dict Role)
    (game : List Str) :
    (∀ p len caps r, reSearch winsRe (joinWith ' ' game) = some (p, len, caps) →
      dictFind (capGetD caps 1) pm = some r →
      getWinner op pm game = .ok (roleOutcome r)) ∧
    (reSearch winsRe (joinWith ' ' game) = none →
      ∀ p len caps r, reSearch concededRe (joinWith ' ' game) = some (p, len, caps) →
      dictFind (capGetD caps 1) pm = some r →
      getWinner op pm game = .ok (otherRoleOutcome r)) ∧
    (reSearch winsRe (joinWith ' ' game) = none →
      reSearch concededRe (joinWith ' ' game) = none →
      ∀ p len caps r, reSearch losesRe (joinWith ' ' game) = some (p, len, caps) →
      dictFind (capGetD caps 1) pm = some r →
      getWinner op pm game = .ok (otherRoleOutcome r)) := by
  refine ⟨?_, ?_, ?_⟩
  · intro p len caps r hw hr
    simp only [getWinner, hw, hr]
  · intro hw p len caps r hc hr
    cases r <;> simp only [getWinner, hw, hc, hr, otherRoleOutcome]
  · intro hw hc p len caps r hl hr
    cases r <;> simp only [getWinner, hw, hc, hl, hr, otherRoleOutcome]

/-- C5 witness: a slice containing only a concession by A (resolved to
player) yields the opposite role, opponent, as the winner. -/
theorem c5_witness :
    getWinner opUnknown pmAB [str "A has conceded today"] = .ok .opponent :=
  (c5_winner_priority opUnknown pmAB [str "A has conceded today"]).2.1
    (by decide) 0 14 [(1, str "A")] .player (by decide) (by decide)

/-- collectCards raises KeyError when some match's identifier is outside
the role map. -/
theorem collectCards_err {pm : Dict Role} :
    ∀ {ms : List Caps} (acc : CardSets),
    (∃ m, m ∈ ms ∧ dictFind (capGetD m 1) pm = none) →
    collectCards pm ms acc = .error .keyError
  | [], _, h => by simp at h
  | m :: ms, acc, h => by
    obtain ⟨x, hx, hlook⟩ := h
    rcases List.mem_cons.1 hx with rfl | hx
    · rw [collectCards, hlook]
    · cases hfind : dictFind (capGetD m 1) pm with
      | none => rw [collectCards, hfind]
      | some r =>
        cases r <;> rw [collectCards, hfind] <;>
          exact collectCards_err _ ⟨x, hx, hlook⟩

/-- collectCards succeeds when every match's identifier is in the role
map. -/
theorem collectCards_ok {pm : Dict Role} :
    ∀ {ms : List Caps} (acc : CardSets),
    (∀ m ∈ ms, dictFind (capGetD m 1) pm ≠ none) →
    ∃ out, collectCards pm ms acc = .ok out
  | [], acc, _ => ⟨acc, rfl⟩
  | m :: ms, acc, h => by
    cases hfind : dictFind (capGetD m 1) pm with
    | none => exact absurd hfind (h m (List.mem_cons_self m ms))
    | some r =>
      have hr := fun x hx => h x (List.mem_cons_of_mem m hx)
      cases r
      · obtain ⟨out, hout⟩ := collectCards_ok
          { acc with player := setAdd (capGetD m 4) acc.player } hr
        exact ⟨out, by rw [collectCards, hfind]; exact hout⟩
      · obtain ⟨out, hout⟩ := collectCards_ok
          { acc with opponent := setAdd (capGetD m 4) acc.opponent } hr
        exact ⟨out, by rw [collectCards, hfind]; exact hout⟩

/-- C10: card collection is total exactly under the precondition that
every play-action identifier is a key of the resolved role map: if some
players_cards_pattern match names an unresolved identifier, the pipeline
aborts with the uncaught KeyError (it does not yield an absent record);
if every such identifier is resolved, the normalizer's error branch is
unreachable and _format_cards succeeds. -/
theorem c10_cards_total (order : List Str → List Str) (op : List Str → Outcome)
    (text : Str) (pref : Option Str) (pm : Dict Role)
    (hpm : getPlayers order text pref = .ok pm) :
    ((∃ m, m ∈ reFindall pcpRe text ∧ dictFind (capGetD m 1) pm = none) →
      matchRecord order op text pref = .crash .keyError) ∧
    ((∀ m ∈ reFindall pcpRe text, dictFind (capGetD m 1) pm ≠ none) →
      ∃ cards, formatCards pm text = .ok (cards, subCard text)) := by
  constructor
  · intro h
    have hcoll := collectCards_err ⟨[], []⟩ h
    simp only [matchRecord, hpm, formatCards, hcoll]
  · intro h
    obtain ⟨out, hout⟩ := collectCards_ok ⟨[], []⟩ h
    exact ⟨out, by simp only [formatCards, hout]⟩

/-- tC10 is a log whose play action names an identifier that never
rolled. -/
def tC10 : Str := str "@PX rolled.@PY rolled.@PZ casts @[Bolt@:1:@]"

/-- pmC10 is the role map the resolver computes for tC10 with the
identity iteration order and no preferred name. -/
def pmC10 : Dict Role := [(str "Y", .opponent), (str "X", .player)]

/-- C10 witness: on tC10 the unresolved caster Z aborts the pipeline
with the uncaught KeyError. -/
theorem c10_witness : matchRecord ordId opUnknown tC10 none = .crash .keyError :=
  (c10_cards_total ordId opUnknown tC10 none pmC10 (by decide)).1 (by decide)

/-- takeWhile equals take up to the first failing element. -/
theorem takeWhile_eq_take {α : Type} (p : α → Bool) :
    ∀ (l : List α) (k : Nat), (∀ x ∈ l.take k, p x = true) →
    (∀ x, (l.drop k).head? = some x → p x = false) →
    l.takeWhile p = l.take k
  | [], k, _, _ => by simp
  | a :: t, 0, _, hh => by
    have ha := hh a (by simp)
    simp [List.takeWhile_cons, ha]
  | a :: t, k + 1, ht, hh => by
    have ha : p a = true := ht a (by simp)
    rw [List.takeWhile_cons, if_pos ha, List.take_succ_cons,
      takeWhile_eq_take p t k (fun x hx => ht x (by simp [hx])) (fun x hx => hh x (by simpa using hx))]

/-- headD of a positive take is the headD of the list. -/
theorem headD_take {α : Type} (l : List α) (d : α) {m : Nat} (hm : 0 < m) :
    (l.take m).headD d = l.headD d := by
  cases l with
  | nil => simp
  | cons a t =>
    cases m with
    | zero => exact absurd hm (by simp)
    | succ m => simp

/-- a positive take of a nonempty list is nonempty. -/
theorem take_ne_nil {α : Type} {l : List α} (hl : l ≠ []) {m : Nat} (hm : 0 < m) :
    l.take m ≠ [] := by
  cases l with
  | nil => exact absurd rfl hl
  | cons a t =>
    cases m with
    | zero => exact absurd hm (by simp)
    | succ m => simp

/-- headD of a nonempty dropLast is the headD of the list. -/
theorem headD_dropLast {α : Type} (l : List α) (d : α) (h : l.dropLast ≠ []) :
    l.dropLast.headD d = l.headD d := by
  cases l with
  | nil => simp
  | cons a t =>
    cases t with
    | nil => simp at h
    | cons b u => simp [List.dropLast]

/-- take before dropLast of the matching drop rebuilds dropLast. -/
theorem take_dropLast_drop {α : Type} (l : List α) {n : Nat} (h : n < l.length) :
    l.take n ++ (l.drop n).dropLast = l.dropLast := by
  rw [List.dropLast_eq_take, List.dropLast_eq_take, List.length_drop]
  have h2 : l.length - 1 = n + (l.length - n - 1) := by omega
  rw [h2, List.take_add]

/-- gamesStep is the loop body of _get_games. -/
def gamesStep (lines : List Str) (acc : List (List Str) × Nat) (pr : Nat × Str) :
    List (List Str) × Nat :=
  if subStr ctpMarker pr.2 then
    (acc.1 ++ [(lines.drop acc.2).take (pr.1 - acc.2)], pr.1)
  else acc

/-- getGames is the fold of gamesStep followed by the final append and
the pop of the preamble. -/
theorem getGames_eq (lines : List Str) :
    getGames lines =
      (((List.enumFrom 0 lines).foldl (gamesStep lines) ([], 0)).1 ++
        [(lines.drop ((List.enumFrom 0 lines).foldl (gamesStep lines) ([], 0)).2).dropLast]).tail := rfl

/-- GamesInv is the loop invariant of the _get_games scan at position k:
the accumulated slices tile the prefix up to the last marker, their count
is the number of marker lines seen, an empty accumulator means no marker
seen, every slice after the first starts at a marker line, and a
nonempty accumulator starts with the preamble and points at a marker. -/
def GamesInv (lines : List Str) (k : Nat) (st : List (List Str) × Nat) : Prop :=
  st.1.flatten = lines.take st.2 ∧
  st.1.length = (lines.take k).countP (fun l => subStr ctpMarker l) ∧
  (st.1 = [] → st.2 = 0 ∧ ∀ l ∈ lines.take k, subStr ctpMarker l = false) ∧
  (∀ g ∈ st.1.tail, g ≠ [] ∧ subStr ctpMarker (g.headD []) = true) ∧
  (st.1 ≠ [] → st.2 < k ∧ subStr ctpMarker ((lines.drop st.2).headD []) = true ∧
    st.1.headD [] = lines.takeWhile (fun l => !subStr ctpMarker l))

/-- gamesFold_master: the _get_games scan maintains GamesInv from any
position to the end of the lines. -/
theorem gamesFold_master (lines : List Str) :
    ∀ (rest : List Str) (k : Nat) (st : List (List Str) × Nat),
    rest = lines.drop k → GamesInv lines k st →
    GamesInv lines lines.length ((List.enumFrom k rest).foldl (gamesStep lines) st) := by
  intro rest
  induction rest with
  | nil =>
    intro k st hrest hinv
    show GamesInv lines lines.length st
    have hk : lines.length ≤ k := by
      have hlen := congrArg List.length hrest
      simp only [List.length_nil, List.length_drop] at hlen
      omega
    obtain ⟨h1, h2, h3, h4, h5⟩ := hinv
    refine ⟨h1, ?_, ?_, h4, ?_⟩
    · rw [List.take_length, h2, List.take_of_length_le hk]
    · intro hnil
      obtain ⟨ha, hb⟩ := h3 hnil
      refine ⟨ha, ?_⟩
      intro l hl
      rw [List.take_length] at hl
      exact hb l (by rw [List.take_of_length_le hk]; exact hl)
    · intro hne
      obtain ⟨ha, hb, hc⟩ := h5 hne
      refine ⟨?_, hb, hc⟩
      by_contra hge
      push_neg at hge
      rw [List.drop_eq_nil_of_le (by omega)] at hb
      exact absurd hb (by decide)
  | cons r0 rest2 ih =>
    intro k st hrest hinv
    have hk : k < lines.length := by
      have hlen := congrArg List.length hrest
      simp only [List.length_cons, List.length_drop] at hlen
      omega
    have hr0 : lines[k]? = some r0 := by
      rw [← List.head?_drop, ← hrest]
      rfl
    have hrest2 : rest2 = lines.drop (k + 1) := by
      rw [← List.tail_drop, ← hrest]
      rfl
    have htake : lines.take (k + 1) = lines.take k ++ [r0] := by
      rw [List.take_succ, hr0]
      rfl
    have hdk : lines.drop k = r0 :: rest2 := hrest.symm
    rw [List.enumFrom_cons, List.foldl_cons]
    refine ih (k + 1) (gamesStep lines st (k, r0)) hrest2 ?_
    obtain ⟨h1, h2, h3, h4, h5⟩ := hinv
    by_cases hm : subStr ctpMarker r0 = true
    · have hstep : gamesStep lines st (k, r0) =
          (st.1 ++ [(lines.drop st.2).take (k - st.2)], k) := by
        rw [gamesStep, if_pos hm]
      rw [hstep]
      have hst2k : st.2 ≤ k := by
        cases hc : st.1 with
        | nil => exact (h3 hc).1 ▸ Nat.zero_le k
        | cons a b => exact Nat.le_of_lt (h5 (by rw [hc]; simp)).1
      refine ⟨?_, ?_, ?_, ?_, ?_⟩
      · show (st.1 ++ [(lines.drop st.2).take (k - st.2)]).flatten = lines.take k
        rw [List.flatten_append, h1, List.flatten_cons, List.flatten_nil,
          List.append_nil, ← List.take_add]
        congr 1
        omega
      · show (st.1 ++ [(lines.drop st.2).take (k - st.2)]).length = _
        rw [List.length_append, h2, htake, List.countP_append]
        simp [List.countP_cons, hm]
      · intro hnil
        exact absurd hnil (by simp)
      · show ∀ g ∈ (st.1 ++ [(lines.drop st.2).take (k - st.2)]).tail, _
        cases hc : st.1 with
        | nil =>
          intro g hg
          simp at hg
        | cons h0 t0 =>
          intro g hg
          rw [List.cons_append, List.tail_cons] at hg
          rcases List.mem_append.1 hg with hg | hg
          · exact h4 g (by rw [hc]; exact hg)
          · obtain ⟨hlt, hmark, _⟩ := h5 (by rw [hc]; simp)
            have hpos : 0 < k - st.2 := by omega
            have hdrop_ne : lines.drop st.2 ≠ [] := by
              have : 0 < (lines.drop st.2).length := by
                rw [List.length_drop]; omega
              exact List.ne_nil_of_length_pos this
            simp only [List.mem_singleton] at hg
            subst hg
            refine ⟨take_ne_nil hdrop_ne hpos, ?_⟩
            rw [headD_take _ _ hpos]
            exact hmark
      · intro _
        refine ⟨by omega, ?_, ?_⟩
        · show subStr ctpMarker ((lines.drop k).headD []) = true
          rw [hdk]
          exact hm
        · show (st.1 ++ [(lines.drop st.2).take (k - st.2)]).headD [] = _
          cases hc : st.1 with
          | nil =>
            have ⟨hz, hall⟩ := h3 hc
            rw [List.nil_append]
            show (lines.drop st.2).take (k - st.2) = _
            rw [hz]
            simp only [List.drop_zero, Nat.sub_zero]
            rw [takeWhile_eq_take (fun l => !subStr ctpMarker l) lines k
              (fun x hx => by
                show (!subStr ctpMarker x) = true
                rw [hall x hx]
                rfl)
              (fun x hx => by
                show (!subStr ctpMarker x) = false
                rw [hdk] at hx
                simp only [List.head?_cons, Option.some.injEq] at hx
                rw [← hx, hm]
                rfl)]
          | cons h0 t0 =>
            obtain ⟨_, _, hhead⟩ := h5 (by rw [hc]; simp)
            rw [List.cons_append]
            show h0 = _
            rw [← hhead, hc]
            rfl
    · have hstep : gamesStep lines st (k, r0) = st := by
        rw [gamesStep, if_neg hm]
      rw [hstep]
      have hmf : subStr ctpMarker r0 = false := by
        cases hv : subStr ctpMarker r0
        · rfl
        · exact absurd hv hm
      refine ⟨h1, ?_, ?_, h4, ?_⟩
      · rw [h2, htake, List.countP_append]
        simp [List.countP_cons, hmf]
      · intro hnil
        obtain ⟨ha, hb⟩ := h3 hnil
        refine ⟨ha, ?_⟩
        intro l hl
        rw [htake] at hl
        rcases List.mem_append.1 hl with hl | hl
        · exact hb l hl
        · simp only [List.mem_singleton] at hl
          rw [hl]
          exact hmf
      · intro hne
        obtain ⟨ha, hb, hc⟩ := h5 hne
        exact ⟨by omega, hb, hc⟩

/-- gamesFD is the state after the whole _get_games scan. -/
def gamesFD (lines : List Str) : List (List Str) × Nat :=
  (List.enumFrom 0 lines).foldl (gamesStep lines) ([], 0)

/-- getGames in terms of the scan state. -/
theorem getGames_eq2 (lines : List Str) :
    getGames lines =
      ((gamesFD lines).1 ++ [(lines.drop (gamesFD lines).2).dropLast]).tail := rfl

/-- GamesInv holds at the start of the scan. -/
theorem gamesInv_init (lines : List Str) : GamesInv lines 0 ([], 0) :=
  ⟨by simp, by simp, fun _ => ⟨rfl, by simp⟩, by simp, fun h => absurd rfl h⟩

/-- GamesInv holds of the final scan state. -/
theorem gamesFD_inv (lines : List Str) :
    GamesInv lines lines.length (gamesFD lines) :=
  gamesFold_master lines lines 0 ([], 0) rfl (gamesInv_init lines)

/-- getGames produces one slice per marker line. -/
theorem getGames_length (lines : List Str) :
    (getGames lines).length = lines.countP (fun l => subStr ctpMarker l) := by
  obtain ⟨h1, h2, h3, h4, h5⟩ := gamesFD_inv lines
  rw [List.take_length] at h2
  rw [getGames_eq2]
  cases hc : (gamesFD lines).1 with
  | nil =>
    rw [hc] at h2
    simp at h2
    simp [← h2]
  | cons h0 t0 =>
    rw [hc] at h2
    simp only [List.length_cons] at h2
    simp only [List.cons_append, List.tail_cons, List.length_append,
      List.length_singleton]
    omega

/-- every nonempty getGames slice starts with a marker line. -/
theorem getGames_head (lines : List Str) :
    ∀ g ∈ getGames lines, g ≠ [] → subStr ctpMarker (g.headD []) = true := by
  obtain ⟨h1, h2, h3, h4, h5⟩ := gamesFD_inv lines
  intro g hg hgne
  rw [getGames_eq2] at hg
  cases hc : (gamesFD lines).1 with
  | nil =>
    rw [hc] at hg
    simp at hg
  | cons h0 t0 =>
    rw [hc] at hg
    simp only [List.cons_append, List.tail_cons] at hg
    rcases List.mem_append.1 hg with hg | hg
    · exact (h4 g (by rw [hc]; simpa using hg)).2
    · simp only [List.mem_singleton] at hg
      subst hg
      have hfdne : (gamesFD lines).1 ≠ [] := by rw [hc]; simp
      obtain ⟨hlt, hmark, _⟩ := h5 hfdne
      rw [headD_dropLast _ _ hgne]
      exact hmark

/-- the preamble plus the slices rebuild the lines without their last
element, once at least one marker line exists. -/
theorem getGames_reconstruct (lines : List Str)
    (h : 1 ≤ lines.countP (fun l => subStr ctpMarker l)) :
    lines.takeWhile (fun l => !subStr ctpMarker l) ++ (getGames lines).flatten =
      lines.dropLast := by
  obtain ⟨h1, h2, h3, h4, h5⟩ := gamesFD_inv lines
  rw [List.take_length] at h2
  cases hc : (gamesFD lines).1 with
  | nil =>
    rw [hc] at h2
    simp at h2
    omega
  | cons h0 t0 =>
    have hfdne : (gamesFD lines).1 ≠ [] := by rw [hc]; simp
    obtain ⟨hlt, hmark, hhead⟩ := h5 hfdne
    rw [getGames_eq2, hc]
    simp only [List.cons_append, List.tail_cons, List.flatten_append,
      List.flatten_cons, List.flatten_nil, List.append_nil]
    rw [hc] at h1
    rw [List.flatten_cons] at h1
    rw [hc] at hhead
    simp only [List.headD_cons] at hhead
    rw [← hhead, ← List.append_assoc, h1]
    exact take_dropLast_drop lines hlt

/-- C4 (amended): the Game Segmenter opens a new slice exactly at the
lines containing the substring chooses-to-play (the code tests this
shorter phrase, not chooses-to-play-first): the number of slices equals
the number of such lines, every nonempty slice starts at such a line,
and once a marker exists the removed preamble (the lines before the
first marker) plus the slices rebuild the filtered sequence without its
final line (the final accumulated slice excludes the last line). -/
theorem c4_segmenter_amended (lines : List Str) :
    (getGames lines).length = lines.countP (fun l => subStr ctpMarker l) ∧
    (∀ g ∈ getGames lines, g ≠ [] → subStr ctpMarker (g.headD []) = true) ∧
    (1 ≤ lines.countP (fun l => subStr ctpMarker l) →
      lines.takeWhile (fun l => !subStr ctpMarker l) ++ (getGames lines).flatten =
        lines.dropLast) :=
  ⟨getGames_length lines, getGames_head lines, getGames_reconstruct lines⟩

/-- resplit never returns the empty fragment list. -/
theorem resplit_ne_nil (p : Char → Bool) : ∀ (s : List Char), resplit p s ≠ []
  | [] => by simp [resplit]
  | c :: cs => by
    rw [resplit]
    cases hr : resplit p cs with
    | nil => simp
    | cons l ls =>
      by_cases hc : p c = true
      · simp [hc]
      · simp [hc]

/-- resplit unfolded on a cons, using that resplit is never empty. -/
theorem resplit_cons (p : Char → Bool) (c : Char) (cs : List Char) :
    resplit p (c :: cs) =
      if p c = true then [] :: resplit p cs
      else (c :: (resplit p cs).headD []) :: (resplit p cs).tail := by
  rw [resplit]
  cases hr : resplit p cs with
  | nil => exact absurd hr (resplit_ne_nil p cs)
  | cons l ls =>
    by_cases hc : p c = true
    · simp [hc]
    · simp [hc]

/-- resplit fragments contain no split character. -/
theorem resplit_no_split (p : Char → Bool) :
    ∀ (s : List Char), ∀ l ∈ resplit p s, ∀ c ∈ l, p c = false
  | [], l, hl, c, hc => by
    simp [resplit] at hl
    rw [hl] at hc
    simp at hc
  | x :: xs, l, hl, c, hc => by
    rw [resplit_cons] at hl
    by_cases hx : p x = true
    · rw [if_pos hx] at hl
      rcases List.mem_cons.1 hl with rfl | hl
      · simp at hc
      · exact resplit_no_split p xs l hl c hc
    · rw [if_neg hx] at hl
      rcases List.mem_cons.1 hl with rfl | hl
      · rcases List.mem_cons.1 hc with rfl | hc2
        · cases hv : p c with
          | false => rfl
          | true => exact absurd hv hx
        · cases hr : resplit p xs with
          | nil => exact absurd hr (resplit_ne_nil p xs)
          | cons l0 ls =>
            rw [hr] at hc2
            exact resplit_no_split p xs l0 (by rw [hr]; simp) c (by simpa using hc2)
      · cases hr : resplit p xs with
        | nil => exact absurd hr (resplit_ne_nil p xs)
        | cons l0 ls =>
          rw [hr] at hl
          exact resplit_no_split p xs l
            (by rw [hr]; exact List.mem_cons_of_mem l0 (by simpa using hl)) c hc

/-- resplit of a clean fragment is that fragment alone. -/
theorem resplit_clean (p : Char → Bool) :
    ∀ (l : List Char), (∀ c ∈ l, p c = false) → resplit p l = [l]
  | [], _ => rfl
  | c :: cs, h => by
    rw [resplit_cons, resplit_clean p cs (fun x hx => h x (List.mem_cons_of_mem c hx)),
      if_neg (by rw [h c (List.mem_cons_self c cs)]; simp)]
    simp

/-- resplit of a clean fragment followed by more text extends the first
fragment of the rest. -/
theorem resplit_clean_append (p : Char → Bool) :
    ∀ (a b : List Char), (∀ c ∈ a, p c = false) →
    resplit p (a ++ b) = (a ++ (resplit p b).headD []) :: (resplit p b).tail
  | [], b, _ => by
    cases hr : resplit p b with
    | nil => exact absurd hr (resplit_ne_nil p b)
    | cons l ls => simp [hr]
  | c :: a0, b, h => by
    rw [List.cons_append, resplit_cons,
      resplit_clean_append p a0 b (fun x hx => h x (List.mem_cons_of_mem c hx)),
      if_neg (by rw [h c (List.mem_cons_self c a0)]; simp)]
    simp

/-- resplit undoes joinWith on clean fragments with a split separator. -/
theorem resplit_joinWith (p : Char → Bool) (sep : Char) (hsep : p sep = true) :
    ∀ (ls : List (List Char)), ls ≠ [] → (∀ l ∈ ls, ∀ c ∈ l, p c = false) →
    resplit p (joinWith sep ls) = ls
  | [], hne, _ => absurd rfl hne
  | [l], _, h => by
    rw [joinWith]
    exact resplit_clean p l (h l (by simp))
  | l :: l2 :: ls, _, h => by
    rw [joinWith, resplit_clean_append p l (sep :: joinWith sep (l2 :: ls))
      (h l (by simp))]
    have hrest : resplit p (sep :: joinWith sep (l2 :: ls)) =
        [] :: resplit p (joinWith sep (l2 :: ls)) := by
      rw [resplit_cons, if_pos hsep]
    rw [hrest, resplit_joinWith p sep hsep (l2 :: ls) (by simp)
      (fun x hx => h x (List.mem_cons_of_mem l hx))]
    simp

/-- atP is the participant-marker token of the strip pattern. -/
def atP : Str := str "@P"

/-- lastAtPEnd is none exactly when the token does not occur. -/
theorem lastAtPEnd_none_iff : ∀ (s : List Char),
    lastAtPEnd s = none ↔ subStr atP s = false
  | [] => by simp [lastAtPEnd, subStr, atP, str]
  | [x] => by
    simp only [lastAtPEnd, subStr, atP, str]
    constructor
    · intro _
      simp [List.isPrefixOf, String.data]
    · intro _
      trivial
  | x :: y :: t => by
    rw [lastAtPEnd]
    constructor
    · intro h
      cases hr : lastAtPEnd (y :: t) with
      | some k => rw [hr] at h; simp at h
      | none =>
        rw [hr] at h
        have hxy : ¬(x = '@' ∧ y = 'P') := by
          by_contra hc
          rw [if_pos hc] at h
          simp at h
        have hsub : subStr atP (y :: t) = false := (lastAtPEnd_none_iff (y :: t)).1 hr
        rw [subStr, hsub]
        simp only [Bool.or_false]
        show List.isPrefixOf ('@' :: 'P' :: []) (x :: y :: t) = false
        simp only [List.isPrefixOf, Bool.and_eq_true, beq_iff_eq]
        by_cases hx : '@' = x
        · by_cases hy : 'P' = y
          · exact absurd ⟨hx.symm, hy.symm⟩ hxy
          · simp [hx, hy]
        · simp [hx]
    · intro h
      rw [subStr] at h
      have hp : List.isPrefixOf atP (x :: y :: t) = false := by
        cases hv : List.isPrefixOf atP (x :: y :: t)
        · rfl
        · rw [hv] at h; simp at h
      have hsub : subStr atP (y :: t) = false := by
        cases hv : subStr atP (y :: t)
        · rfl
        · rw [hv] at h; simp at h
      rw [(lastAtPEnd_none_iff (y :: t)).2 hsub]
      have hxy : ¬(x = '@' ∧ y = 'P') := by
        rintro ⟨rfl, rfl⟩
        have : List.isPrefixOf atP ('@' :: 'P' :: t) = true := by
          simp [atP, str, List.isPrefixOf, String.data]
        rw [this] at hp
        simp at hp
      rw [if_neg hxy]

/-- after the reported end of the last token occurrence, no occurrence
remains. -/
theorem lastAtPEnd_drop : ∀ (s : List Char) (k : Nat),
    lastAtPEnd s = some k → subStr atP (s.drop k) = false
  | [], k, h => by simp [lastAtPEnd] at h
  | [x], k, h => by simp [lastAtPEnd] at h
  | x :: y :: t, k, h => by
    rw [lastAtPEnd] at h
    cases hr : lastAtPEnd (y :: t) with
    | some k2 =>
      rw [hr] at h
      simp only [Option.some.injEq] at h
      rw [← h]
      exact lastAtPEnd_drop (y :: t) k2 hr
    | none =>
      rw [hr] at h
      by_cases hxy : x = '@' ∧ y = 'P'
      · rw [if_pos hxy] at h
        simp only [Option.some.injEq] at h
        rw [← h]
        show subStr atP t = false
        have hsub : subStr atP (y :: t) = false := (lastAtPEnd_none_iff (y :: t)).1 hr
        rw [subStr] at hsub
        cases hv : subStr atP t
        · rfl
        · rw [hv] at hsub; simp at hsub
      · rw [if_neg hxy] at h
        simp at h

/-- the reported end is within the segment. -/
theorem lastAtPEnd_le : ∀ (s : List Char) (k : Nat),
    lastAtPEnd s = some k → k ≤ s.length
  | [], k, h => by simp [lastAtPEnd] at h
  | [x], k, h => by simp [lastAtPEnd] at h
  | x :: y :: t, k, h => by
    rw [lastAtPEnd] at h
    cases hr : lastAtPEnd (y :: t) with
    | some k2 =>
      rw [hr] at h
      simp only [Option.some.injEq] at h
      have := lastAtPEnd_le (y :: t) k2 hr
      simp only [List.length_cons] at this ⊢
      omega
    | none =>
      rw [hr] at h
      by_cases hxy : x = '@' ∧ y = 'P'
      · rw [if_pos hxy] at h
        simp only [Option.some.injEq] at h
        simp [← h]
      · rw [if_neg hxy] at h
        simp at h

/-- stripAtP is the identity when no token end is found. -/
theorem stripAtP_eq_none {l : List Char}
    (h : lastAtPEnd (l.takeWhile notNl) = none) : stripAtP l = l := by
  unfold stripAtP
  rw [h]

/-- stripAtP drops through the reported token end. -/
theorem stripAtP_eq_some {l : List Char} {k : Nat}
    (h : lastAtPEnd (l.takeWhile notNl) = some k) : stripAtP l = l.drop k := by
  unfold stripAtP
  rw [h]

/-- stripAtP returns a suffix of its input. -/
theorem stripAtP_suffix (l : List Char) : ∃ pre, l = pre ++ stripAtP l := by
  cases h : lastAtPEnd (l.takeWhile notNl) with
  | none => exact ⟨[], by rw [stripAtP_eq_none h]; rfl⟩
  | some k => exact ⟨l.take k, by rw [stripAtP_eq_some h, List.take_append_drop]⟩

/-- takeWhile of an all-good run followed by a failing head is the run. -/
theorem takeWhile_all_append (q : Char → Bool) :
    ∀ (a b : List Char), (∀ c ∈ a, q c = true) →
    (∀ x, b.head? = some x → q x = false) → (a ++ b).takeWhile q = a
  | [], b, _, hb => by
    cases b with
    | nil => simp
    | cons x t =>
      rw [List.nil_append, List.takeWhile_cons, if_neg (by rw [hb x rfl]; simp)]
  | c :: a0, b, ha, hb => by
    rw [List.cons_append, List.takeWhile_cons, if_pos (ha c (by simp)),
      takeWhile_all_append q a0 b (fun x hx => ha x (by simp [hx])) hb]

/-- the head of dropWhile fails the predicate. -/
theorem head_dropWhile_false (q : Char → Bool) :
    ∀ (l : List Char) (x : Char), (l.dropWhile q).head? = some x → q x = false
  | [], x, h => by simp at h
  | c :: cs, x, h => by
    rw [List.dropWhile_cons] at h
    by_cases hc : q c = true
    · rw [if_pos hc] at h
      exact head_dropWhile_false q cs x h
    · rw [if_neg hc] at h
      simp only [List.head?_cons, Option.some.injEq] at h
      rw [← h]
      cases hv : q c with
      | false => rfl
      | true => exact absurd hv hc

/-- the leading newline-free segment of a stripped line has no token. -/
theorem stripAtP_firstline (l : List Char) :
    subStr atP ((stripAtP l).takeWhile notNl) = false := by
  cases h : lastAtPEnd (l.takeWhile notNl) with
  | none =>
    rw [stripAtP_eq_none h]
    exact (lastAtPEnd_none_iff _).1 h
  | some k =>
    rw [stripAtP_eq_some h]
    have hk : k ≤ (l.takeWhile notNl).length := lastAtPEnd_le _ k h
    have hsplit : l = l.takeWhile notNl ++ l.dropWhile notNl :=
      (List.takeWhile_append_dropWhile notNl l).symm
    have hdrop : l.drop k = (l.takeWhile notNl).drop k ++ l.dropWhile notNl := by
      conv in l.drop k => rw [hsplit]
      exact List.drop_append_of_le_length hk
    rw [hdrop, takeWhile_all_append notNl _ _
      (fun c hc => List.mem_takeWhile_imp (List.mem_of_mem_drop hc))
      (head_dropWhile_false notNl l)]
    exact lastAtPEnd_drop _ k h

/-- stripAtP is the identity on a line whose leading segment has no
token. -/
theorem stripAtP_id {l : List Char}
    (h : subStr atP (l.takeWhile notNl) = false) : stripAtP l = l :=
  stripAtP_eq_none ((lastAtPEnd_none_iff _).2 h)

/-- every filtered line is denylist-free, has no token in its leading
newline-free segment, and is longer than 3 characters. -/
theorem formatLines_props (t : Str) :
    ∀ l ∈ formatLines t, (∀ c ∈ l, isDenyCh c = false) ∧
      subStr atP (l.takeWhile notNl) = false ∧ 3 < l.length := by
  intro l hl
  rw [formatLines] at hl
  rw [List.mem_filter] at hl
  obtain ⟨hmem, hlen⟩ := hl
  obtain ⟨x, hx, rfl⟩ := List.mem_map.1 hmem
  refine ⟨?_, stripAtP_firstline x, by simpa using hlen⟩
  intro c hc
  obtain ⟨pre, hpre⟩ := stripAtP_suffix x
  exact resplit_no_split isDenyCh t x hx c (by rw [hpre]; exact List.mem_append_right pre hc)

/-- C7 (amended): the Line Filter is idempotent up to serialisation:
every already-filtered line contains no denylist character, no
participant-marker token in its leading newline-free segment (a token
may survive after an embedded newline, which the denylist does not cut),
and has length above 3; re-running the filter on the output joined back
with a denylist separator yields the same line sequence. -/
theorem c7_line_filter_amended (t : Str) :
    (∀ l ∈ formatLines t, (∀ c ∈ l, isDenyCh c = false) ∧
      subStr atP (l.takeWhile notNl) = false ∧ 3 < l.length) ∧
    formatLines (joinWith '.' (formatLines t)) = formatLines t := by
  refine ⟨formatLines_props t, ?_⟩
  cases hout : formatLines t with
  | nil => decide
  | cons l0 ls =>
    have hprops : ∀ l ∈ l0 :: ls, (∀ c ∈ l, isDenyCh c = false) ∧
        subStr atP (l.takeWhile notNl) = false ∧ 3 < l.length := by
      rw [← hout]
      exact formatLines_props t
    rw [formatLines,
      resplit_joinWith isDenyCh '.' (by decide) (l0 :: ls) (by simp)
        (fun l hl => (hprops l hl).1),
      List.map_congr_left (fun l hl => stripAtP_id (hprops l hl).2.1),
      List.map_id']
    exact List.filter_eq_self.2 (fun l hl => by simpa using (hprops l hl).2.2)

/-- C9 (amended): with no preferred name the Identity Resolver is a
function of the iteration order of the identifier set, not of the text
alone: two runs whose set iterations agree produce the same role map,
and an iteration yielding the two identifiers as a, b always maps a to
player and b to opponent. -/
theorem c9_resolver_amended (order1 order2 : List Str → List Str) (text : Str)
    (hperm : (order1 (rolledNames text)).Perm (rolledNames text)) :
    (order1 (rolledNames text) = order2 (rolledNames text) →
      getPlayers order1 text none = getPlayers order2 text none) ∧
    (∀ a b, order1 (rolledNames text) = [a, b] →
      getPlayers order1 text none = .ok [(b, .opponent), (a, .player)]) := by
  constructor
  · intro h
    simp only [getPlayers]
    rw [h]
  · intro a b hab
    have hnodup : (order1 (rolledNames text)).Nodup :=
      hperm.nodup_iff.2 (List.nodup_dedup _)
    rw [hab] at hnodup
    have hne : a ≠ b := by
      simp only [List.nodup_cons, List.mem_singleton] at hnodup
      exact hnodup.1
    simp only [getPlayers, hab]
    simp [dictInsert, if_neg (Ne.symm hne)]

/-- C9 amended witness: on tC9 with the identity iteration order the
resolver assigns A to player and B to opponent. -/
theorem c9_amended_witness :
    getPlayers ordId tC9 none = .ok [(str "B", .opponent), (str "A", .player)] :=
  (c9_resolver_amended ordId ordId tC9 (by decide)).2 (str "A") (str "B") (by decide)

/-- mre on a greedy plus as a candidate scan (definitional). -/
theorem mre_plus (p : Char → Bool) (s : List Char) (caps : Caps)
    (k : List Char → Caps → Option (List Char × Caps)) :
    mre (.plus p) s caps k = firstSome (plusSuffixes p s) (fun rest => k rest caps) := rfl

/-- a sequence headed by a failing literal fails. -/
theorem mre_seq_lit_none {L r : List Char} {R : Re} {caps : Caps}
    {k : List Char → Caps → Option (List Char × Caps)}
    (h : L.isPrefixOf r = false) :
    mre (.seq (.lit L) R) r caps k = none := by
  rw [mre_seq, mre, h]
  simp

/-- firstSome of failing candidates, then a succeeding one. -/
theorem firstSome_concat3 {α β : Type} :
    ∀ (l1 : List α) (x : α) (l2 : List α) (f : α → Option β) (v : β),
    (∀ a ∈ l1, f a = none) → f x = some v →
    firstSome (l1 ++ [x] ++ l2) f = some v
  | [], x, l2, f, v, _, h2 => by simp [firstSome, h2]
  | a :: l1, x, l2, f, v, h1, h2 => by
    rw [List.cons_append, List.cons_append, firstSome, h1 a (by simp)]
    exact firstSome_concat3 l1 x l2 f v (fun y hy => h1 y (by simp [hy])) h2

/-- word characters are not whitespace. -/
theorem wordCh_not_ws {c : Char} (h : isWordCh c = true) : isWsCh c = false := by
  cases hw : isWsCh c with
  | false => rfl
  | true =>
    simp only [isWsCh, Bool.or_eq_true, decide_eq_true_eq] at hw
    rcases hw with ((((rfl | rfl) | rfl) | rfl) | rfl) | rfl <;> exact absurd h (by decide)

/-- word characters are not the newline. -/
theorem wordCh_notNl {c : Char} (h : isWordCh c = true) : notNl c = true := by
  cases hv : notNl c with
  | true => rfl
  | false =>
    simp only [notNl, bne_eq_false_iff_eq] at hv
    rw [hv] at h
    exact absurd h (by decide)

/-- str.split() of one whitespace-free word is that word alone. -/
theorem pySplitWs_single :
    ∀ (w : List Char), w ≠ [] → (∀ c ∈ w, isWordCh c = true) →
    pySplitWs w = [w]
  | [], hne, _ => absurd rfl hne
  | [c], _, h => by
    rw [pySplitWs, if_neg (by rw [wordCh_not_ws (h c (by simp))]; simp)]
    rfl
  | c :: d :: t, _, h => by
    rw [pySplitWs, if_neg (by rw [wordCh_not_ws (h c (by simp))]; simp),
      pySplitWs_single (d :: t) (by simp) (fun x hx => h x (by simp [hx]))]
    simp [wordCh_not_ws (h d (by simp))]

/-- capGetD reads group 1 past the group-2 entry. -/
theorem capGetD_g1 (w idv : List Char) : capGetD [(2, w), (1, idv)] 1 = idv := by
  simp [capGetD, capGet]

/-- capGetD reads group 2 at the head. -/
theorem capGetD_g2 (w idv : List Char) : capGetD [(2, w), (1, idv)] 2 = w := by
  simp [capGetD, capGet]

/-- beginsTail is the part of beginsRe after the leading group. -/
def beginsTail : Re :=
  .seq (.lit (str " begins the game with "))
    (.seq (.grp 2 (.plus isWordCh)) (.lit (str " cards")))

/-- beginsRe decomposed around its leading greedy group. -/
theorem beginsRe_eq : beginsRe = .seq (.grp 1 (.plus notNl)) beginsTail := rfl

/-- begins_matchAt: on a line made of a word identifier followed by a
begins-the-game tail, the greedy leading group captures exactly the
identifier: longer consumptions fail the literal, candidates that keep
part of the identifier are tried only later, and the tail computation is
supplied per concrete tail. -/
theorem begins_matchAt (idv : Str) (hw : ∀ c ∈ idv, isWordCh c = true)
    (hne : idv ≠ []) (X w : Str)
    (hsplit : greedySuffixes notNl X = (greedySuffixes notNl X).dropLast ++ [X])
    (hfail : ∀ r ∈ (greedySuffixes notNl X).dropLast,
      (str " begins the game with ").isPrefixOf r = false)
    (hXc : mre beginsTail X [(1, idv)] (fun rest caps => some (rest, caps)) =
      some ([], [(2, w), (1, idv)])) :
    matchAt beginsRe (idv ++ X) = some ([], [(2, w), (1, idv)]) := by
  simp only [matchAt, beginsRe_eq, mre_seq, mre_grp, mre_plus]
  obtain ⟨ext, he, -⟩ := plusSuffixes_append (p := notNl) X hne
    (fun c hc => wordCh_notNl (hw c hc))
  rw [he, hsplit]
  refine firstSome_concat3 _ _ _ _ _ ?_ ?_
  · intro r hr
    exact mre_seq_lit_none (hfail r hr)
  · show mre beginsTail X [(1, (idv ++ X).take ((idv ++ X).length - X.length))]
        (fun rest caps => some (rest, caps)) = some ([], [(2, w), (1, idv)])
    have hcap : (idv ++ X).take ((idv ++ X).length - X.length) = idv := by
      rw [List.length_append, Nat.add_sub_cancel, List.take_left]
    rw [hcap]
    exact hXc

/-- C8: the starting-hands extractor maps the number word through
NUMS_DICT: a line in which an identifier begins the game with four cards
yields starting hand 4 for that identifier's role, seven cards yields 7,
and a number word outside the table raises the KeyError lookup failure
instead of returning a count. -/
theorem c8_starting_hands (pm : Dict Role) (idv : Str) (r : Role)
    (hw : ∀ c ∈ idv, isWordCh c = true) (hne : idv ≠ [])
    (hr : dictFind idv pm = some r) :
    getStartingHands pm [idv ++ str " begins the game with four cards"] = .ok [(r, 4)] ∧
    getStartingHands pm [idv ++ str " begins the game with seven cards"] = .ok [(r, 7)] ∧
    (∀ (game : List Str) (r2 : Role) (w : Str),
      shPairs pm game = .ok [(r2, w)] → dictFind w numsDict = none →
      getStartingHands pm game = .error .keyError) := by
  refine ⟨?_, ?_, ?_⟩
  · have hm : matchAt beginsRe (idv ++ str " begins the game with four cards") =
        some ([], [(2, str "four"), (1, idv)]) :=
      begins_matchAt idv hw hne _ _ (by decide) (by decide) rfl
    have hsearch : reSearch beginsRe (idv ++ str " begins the game with four cards") =
        some (0, (idv ++ str " begins the game with four cards").length,
          [(2, str "four"), (1, idv)]) := by
      simpa using reSearch_matchAt hm
    have hpairs : shPairs pm [idv ++ str " begins the game with four cards"] =
        .ok [(r, str "four")] := by
      simp only [shPairs, hsearch, capGetD_g1, capGetD_g2,
        pySplitWs_single idv hne hw, hr]
    simp only [getStartingHands, hpairs, List.foldl_cons, List.foldl_nil]
    show numsMap (adictInsert r (str "four") []) = .ok [(r, 4)]
    simp only [adictInsert, numsMap]
    rw [show dictFind (str "four") numsDict = some 4 from by decide]
  · have hm : matchAt beginsRe (idv ++ str " begins the game with seven cards") =
        some ([], [(2, str "seven"), (1, idv)]) :=
      begins_matchAt idv hw hne _ _ (by decide) (by decide) rfl
    have hsearch : reSearch beginsRe (idv ++ str " begins the game with seven cards") =
        some (0, (idv ++ str " begins the game with seven cards").length,
          [(2, str "seven"), (1, idv)]) := by
      simpa using reSearch_matchAt hm
    have hpairs : shPairs pm [idv ++ str " begins the game with seven cards"] =
        .ok [(r, str "seven")] := by
      simp only [shPairs, hsearch, capGetD_g1, capGetD_g2,
        pySplitWs_single idv hne hw, hr]
    simp only [getStartingHands, hpairs, List.foldl_cons, List.foldl_nil]
    show numsMap (adictInsert r (str "seven") []) = .ok [(r, 7)]
    simp only [adictInsert, numsMap]
    rw [show dictFind (str "seven") numsDict = some 7 from by decide]
  · intro game r2 w hsp hnone
    simp only [getStartingHands, hsp, List.foldl_cons, List.foldl_nil]
    show numsMap (adictInsert r2 w []) = .error .keyError
    simp only [adictInsert, numsMap, hnone]

/-- C8 witness: the line A-begins-the-game-with-four-cards with A
resolved to player yields the starting hand entry player, 4. -/
theorem c8_witness :
    getStartingHands pmAB [str "A" ++ str " begins the game with four cards"] =
      .ok [(Role.player, 4)] :=
  (c8_starting_hands pmAB (str "A") .player (by decide) (by decide) (by decide)).1

/-- subStr as an occurrence decomposition. -/
theorem subStr_exists : ∀ (n h : List Char), subStr n h = true ↔ ∃ u v, h = u ++ n ++ v
  | n, [] => by
    rw [subStr]
    constructor
    · intro he
      refine ⟨[], [], ?_⟩
      have : n = [] := by
        cases n with
        | nil => rfl
        | cons c t => simp at he
      simp [this]
    · rintro ⟨u, v, huv⟩
      have hu : u = [] ∧ n ++ v = [] := by
        constructor
        · cases u with
          | nil => rfl
          | cons c t => simp at huv
        · cases u with
          | nil => simpa using huv.symm
          | cons c t => simp at huv
      have hn : n = [] := by
        have := hu.2
        cases n with
        | nil => rfl
        | cons c t => simp at this
      simp [hn]
  | n, c :: t => by
    rw [subStr, Bool.or_eq_true]
    constructor
    · rintro (hp | hs)
      · obtain ⟨v, hv⟩ := (isPrefixOf_exists n (c :: t)).1 hp
        exact ⟨[], v, by simp [hv]⟩
      · obtain ⟨u, v, huv⟩ := (subStr_exists n t).1 hs
        exact ⟨c :: u, v, by simp [huv]⟩
    · rintro ⟨u, v, huv⟩
      cases u with
      | nil =>
        refine Or.inl ((isPrefixOf_exists n (c :: t)).2 ⟨v, ?_⟩)
        simpa using huv
      | cons x u2 =>
        refine Or.inr ((subStr_exists n t).2 ⟨u2, v, ?_⟩)
        simp only [List.cons_append, List.cons.injEq] at huv
        exact huv.2

/-- a chooses-to-play-first line is a chooses-to-play line. -/
theorem ctpf_imp_ctp {l : Str} (h : subStr ctpfMarker l = true) :
    subStr ctpMarker l = true := by
  obtain ⟨u, v, huv⟩ := (subStr_exists ctpfMarker l).1 h
  refine (subStr_exists ctpMarker l).2 ⟨u, str " first" ++ v, ?_⟩
  rw [huv]
  simp [ctpfMarker, ctpMarker, str, String.data]

/-- exOk discriminates a successful stage. -/
def exOk {e a : Type} : Except e a → Bool
  | .ok _ => true
  | .error _ => false

/-- extractOk states that all four extractors succeed on a slice. -/
def extractOk (op : List Str → Outcome) (pm : Dict Role) (g : List Str) : Bool :=
  exOk (getOnPlay pm g) && exOk (getStartingHands pm g) &&
    exOk (getWinner op pm g) && exOk (getLastTurn g)

/-- a slice with all extractors succeeding yields a game record at any
index. -/
theorem extractGame_ok {op : List Str → Outcome} {pm : Dict Role} {g : List Str}
    (h : extractOk op pm g = true) (i : Nat) :
    ∃ gr, extractGame op pm i g = .ok gr := by
  simp only [extractOk, Bool.and_eq_true] at h
  obtain ⟨⟨⟨h1, h2⟩, h3⟩, h4⟩ := h
  cases e1 : getOnPlay pm g with
  | error e => rw [e1] at h1; simp [exOk] at h1
  | ok onp =>
    cases e2 : getStartingHands pm g with
    | error e => rw [e2] at h2; simp [exOk] at h2
    | ok sh =>
      cases e3 : getWinner op pm g with
      | error e => rw [e3] at h3; simp [exOk] at h3
      | ok w =>
        cases e4 : getLastTurn g with
        | error e => rw [e4] at h4; simp [exOk] at h4
        | ok lt =>
          exact ⟨⟨i + 1, onp, sh, w, lt⟩, by simp only [extractGame, e1, e2, e3, e4]⟩

/-- the game loop succeeds and keeps the slice count when every slice
extracts. -/
theorem gamesLoop_ok {op : List Str → Outcome} {pm : Dict Role} :
    ∀ (gs : List (List Str)) (i : Nat), (∀ g ∈ gs, extractOk op pm g = true) →
    ∃ l, gamesLoop op pm i gs = .ok l ∧ l.length = gs.length
  | [], i, _ => ⟨[], rfl, rfl⟩
  | g :: gs, i, h => by
    obtain ⟨gr, hgr⟩ := extractGame_ok (h g (by simp)) i
    obtain ⟨l, hl, hlen⟩ := gamesLoop_ok gs (i + 1) (fun x hx => h x (by simp [hx]))
    exact ⟨gr :: l, by simp only [gamesLoop, hgr, hl], by simp [hlen]⟩

/-- getPlayers with no preferred name succeeds exactly on a two-element
iteration, mapping the first identifier to player. -/
theorem getPlayers_none_ok {order : List Str → List Str} {text : Str} {a b : Str}
    (hab : order (rolledNames text) = [a, b]) (hne : a ≠ b) :
    getPlayers order text none = .ok [(b, .opponent), (a, .player)] := by
  simp only [getPlayers, hab]
  simp [dictInsert, if_neg (Ne.symm hne)]

/-- getPlayers with no preferred name raises ValueError when the
identifier set does not have exactly two elements. -/
theorem getPlayers_none_err {order : List Str → List Str} {text : Str}
    (hlen : (order (rolledNames text)).length ≠ 2) :
    getPlayers order text none = .error .valueError := by
  cases hl : order (rolledNames text) with
  | nil => simp [getPlayers, hl]
  | cons x xs =>
    cases xs with
    | nil => simp [getPlayers, hl]
    | cons y ys =>
      cases ys with
      | nil => rw [hl] at hlen; simp at hlen
      | cons z zs => simp [getPlayers, hl]

/-- matchRecord reduction: a failed identity resolution with ValueError
is caught and yields the absent record. -/
theorem matchRecord_valueError {order : List Str → List Str}
    {op : List Str → Outcome} {text : Str} {pref : Option Str}
    (hgp : getPlayers order text pref = .error .valueError) :
    matchRecord order op text pref = .absent := by
  simp only [matchRecord, hgp]

/-- matchRecord reduction: fewer than two game slices yield the absent
record. -/
theorem matchRecord_short {order : List Str → List Str}
    {op : List Str → Outcome} {text : Str} {pref : Option Str} {pm : Dict Role}
    {out : CardSets}
    (hgp : getPlayers order text pref = .ok pm)
    (hfc : formatCards pm text = .ok (out, subCard text))
    (h2 : (getGames (formatLines (subCard text))).length < 2) :
    matchRecord order op text pref = .absent := by
  simp only [matchRecord, hgp, hfc]
  rw [if_pos h2]

/-- matchRecord reduction: with resolution, card collection, at least
two slices and a successful game loop, the pipeline yields the record. -/
theorem matchRecord_ok {order : List Str → List Str} {op : List Str → Outcome}
    {text : Str} {pref : Option Str} {pm : Dict Role} {out : CardSets}
    {gl : List GameRec}
    (hgp : getPlayers order text pref = .ok pm)
    (hfc : formatCards pm text = .ok (out, subCard text))
    (h2 : ¬ (getGames (formatLines (subCard text))).length < 2)
    (hgl : gamesLoop op pm 0 (getGames (formatLines (subCard text))) = .ok gl) :
    ∀ l0 ls, formatLines (subCard text) = l0 :: ls →
    matchRecord order op text pref = .record ⟨invertPlayers pm, out, l0, gl⟩ := by
  intro l0 ls hL0
  simp only [matchRecord, hgp, hfc]
  rw [if_neg h2]
  rw [hL0] at hgl
  simp only [hL0, hgl]

/-- C1 (amended): for a log with exactly two distinct roll identifiers
(iterated by a valid set order as a, b), no preferred name, every
play-action identifier resolved, every chooses-to-play line carrying the
full chooses-to-play-first phrase, at least two such marker lines, and
every segmented slice extracting successfully (nonempty with a
resolvable on-play line, resolvable starting-hand subjects with known
number words, a resolvable winner phrase or the operator answer, and a
Turn marker), the pipeline yields a non-absent record whose games list
has exactly one entry per marker line. -/
theorem c1_pipeline_amended (order : List Str → List Str)
    (op : List Str → Outcome) (text : Str) (a b : Str)
    (hperm : (order (rolledNames text)).Perm (rolledNames text))
    (hab : order (rolledNames text) = [a, b])
    (hcards : ∀ m ∈ reFindall pcpRe text,
      dictFind (capGetD m 1) [(b, Role.opponent), (a, Role.player)] ≠ none)
    (hmark : ∀ l ∈ formatLines (subCard text), subStr ctpMarker l = true →
      subStr ctpfMarker l = true)
    (hcount : 2 ≤ (formatLines (subCard text)).countP (fun l => subStr ctpfMarker l))
    (hgames : ∀ g ∈ getGames (formatLines (subCard text)),
      extractOk op [(b, Role.opponent), (a, Role.player)] g = true) :
    ∃ r, matchRecord order op text none = .record r ∧
      r.games.length =
        (formatLines (subCard text)).countP (fun l => subStr ctpfMarker l) := by
  have hnodup : (order (rolledNames text)).Nodup :=
    hperm.nodup_iff.2 (List.nodup_dedup _)
  rw [hab] at hnodup
  have hne : a ≠ b := by
    simp only [List.nodup_cons, List.mem_singleton] at hnodup
    exact hnodup.1
  have hgp := getPlayers_none_ok hab hne
  obtain ⟨out, hout⟩ :=
    collectCards_ok ⟨[], []⟩ hcards
  have hfc : formatCards [(b, Role.opponent), (a, Role.player)] text =
      .ok (out, subCard text) := by
    simp only [formatCards, hout]
  have hcnt_eq : (formatLines (subCard text)).countP (fun l => subStr ctpMarker l) =
      (formatLines (subCard text)).countP (fun l => subStr ctpfMarker l) :=
    List.countP_congr (fun l hl => ⟨fun hc => hmark l hl hc, fun hf => ctpf_imp_ctp hf⟩)
  have hglen : (getGames (formatLines (subCard text))).length =
      (formatLines (subCard text)).countP (fun l => subStr ctpfMarker l) := by
    rw [getGames_length, hcnt_eq]
  have h2 : ¬ (getGames (formatLines (subCard text))).length < 2 := by
    rw [hglen]; omega
  obtain ⟨gl, hgl, hgllen⟩ :=
    gamesLoop_ok (getGames (formatLines (subCard text))) 0 hgames
  have hLne : formatLines (subCard text) ≠ [] := by
    intro h0
    rw [h0] at hcount
    simp at hcount
  obtain ⟨l0, ls, hL0⟩ := List.exists_cons_of_ne_nil hLne
  refine ⟨⟨invertPlayers [(b, Role.opponent), (a, Role.player)], out, l0, gl⟩,
    matchRecord_ok hgp hfc h2 hgl l0 ls hL0, ?_⟩
  show gl.length = _
  rw [hgllen, hglen]

/-- tC1good is a complete two-game log satisfying every hypothesis of
the amended C1. -/
def tC1good : Str :=
  str "idline.@PA rolled.@PB rolled.A chooses to play first.A begins the game with seven cards.B begins the game with seven cards.B wins the game.Turn 1.A chooses to play first.A has conceded.Turn 2.trail"

/-- C1 amended witness: on tC1good the pipeline yields a record with as
many games as marker lines. -/
theorem c1_amended_witness :
    ∃ r, matchRecord ordId opUnknown tC1good none = .record r ∧
      r.games.length =
        (formatLines (subCard tC1good)).countP (fun l => subStr ctpfMarker l) :=
  c1_pipeline_amended ordId opUnknown tC1good (str "A") (str "B")
    (by decide) (by decide) (by decide) (by decide) (by decide) (by decide)

/-- C2 (amended): with no preferred name, a log whose distinct roll
identifiers do not number exactly two yields the absent record (the
unpacking ValueError is caught); and with exactly two identifiers, all
play-action identifiers resolved and fewer than two chooses-to-play
lines in the filtered sequence, the pipeline also yields the absent
record.  With a caller-supplied preferred name the absent outcome is not
guaranteed (see the counterexample). -/
theorem c2_pipeline_amended (order : List Str → List Str)
    (op : List Str → Outcome) (text : Str)
    (hperm : (order (rolledNames text)).Perm (rolledNames text)) :
    ((rolledNames text).length ≠ 2 →
      matchRecord order op text none = .absent) ∧
    (∀ a b, order (rolledNames text) = [a, b] →
      (∀ m ∈ reFindall pcpRe text,
        dictFind (capGetD m 1) [(b, Role.opponent), (a, Role.player)] ≠ none) →
      (formatLines (subCard text)).countP (fun l => subStr ctpMarker l) < 2 →
      matchRecord order op text none = .absent) := by
  constructor
  · intro hlen
    refine matchRecord_valueError (getPlayers_none_err ?_)
    rw [hperm.length_eq]
    exact hlen
  · intro a b hab hcards hcount
    have hnodup : (order (rolledNames text)).Nodup :=
      hperm.nodup_iff.2 (List.nodup_dedup _)
    rw [hab] at hnodup
    have hne : a ≠ b := by
      simp only [List.nodup_cons, List.mem_singleton] at hnodup
      exact hnodup.1
    obtain ⟨out, hout⟩ :=
      collectCards_ok ⟨[], []⟩ hcards
    have hfc : formatCards [(b, Role.opponent), (a, Role.player)] text =
        .ok (out, subCard text) := by
      simp only [formatCards, hout]
    refine matchRecord_short (getPlayers_none_ok hab hne) hfc ?_
    rw [getGames_length]
    exact hcount

/-- C2 amended witness: a log with one roll identifier and no preferred
name yields the absent record. -/
theorem c2_amended_witness :
    matchRecord ordId opUnknown (str "@PA rolled") none = .absent :=
  (c2_pipeline_amended ordId opUnknown (str "@PA rolled") (by decide)).1 (by decide)

/-- occf is a bracketed card-reference encoding followed by the rest of
the text (right-nested for the matcher walk). -/
def occf (C D rest : List Char) : List Char :=
  str "@[" ++ (C ++ (str "@:" ++ (D ++ (str ":@]" ++ rest))))

/-- setAdd only adds the given element. -/
theorem setAdd_mem {x nm : Str} {s : List Str} (h : nm ∈ setAdd x s) :
    nm = x ∨ nm ∈ s := by
  rw [setAdd] at h
  by_cases hx : x ∈ s
  · rw [if_pos hx] at h
    exact Or.inr h
  · rw [if_neg hx] at h
    rcases List.mem_append.1 h with h | h
    · exact Or.inr h
    · simp only [List.mem_singleton] at h
      exact Or.inl h

/-- every name in the collected card sets is the group-4 capture of some
match, unless it was already in the accumulator. -/
theorem collectCards_mem {pm : Dict Role} :
    ∀ {ms : List Caps} {acc out : CardSets},
    collectCards pm ms acc = .ok out → ∀ nm, (nm ∈ out.player ∨ nm ∈ out.opponent) →
    (nm ∈ acc.player ∨ nm ∈ acc.opponent) ∨ ∃ m, m ∈ ms ∧ capGetD m 4 = nm
  | [], acc, out, h, nm, hnm => by
    rw [collectCards] at h
    simp only [Except.ok.injEq] at h
    rw [h]
    exact Or.inl hnm
  | m :: ms, acc, out, h, nm, hnm => by
    rw [collectCards] at h
    cases hfind : dictFind (capGetD m 1) pm with
    | none => rw [hfind] at h; exact absurd h (by simp)
    | some r =>
      rw [hfind] at h
      cases r with
      | player =>
        rcases collectCards_mem h nm hnm with hacc | ⟨m2, hm2, hc⟩
        · rcases hacc with hacc | hacc
          · rcases setAdd_mem hacc with rfl | hacc
            · exact Or.inr ⟨m, by simp⟩
            · exact Or.inl (Or.inl hacc)
          · exact Or.inl (Or.inr hacc)
        · exact Or.inr ⟨m2, List.mem_cons_of_mem m hm2, hc⟩
      | opponent =>
        rcases collectCards_mem h nm hnm with hacc | ⟨m2, hm2, hc⟩
        · rcases hacc with hacc | hacc
          · exact Or.inl (Or.inl hacc)
          · rcases setAdd_mem hacc with rfl | hacc
            · exact Or.inr ⟨m, by simp⟩
            · exact Or.inl (Or.inr hacc)
        · exact Or.inr ⟨m2, List.mem_cons_of_mem m hm2, hc⟩

/-- an exact literal consumes itself. -/
theorem mre_lit_exact (L t : List Char) (caps : Caps)
    (k : List Char → Caps → Option (List Char × Caps)) :
    mre (.lit L) (L ++ t) caps k = k t caps := by
  rw [mre, if_pos ((isPrefixOf_exists L (L ++ t)).2 ⟨t, rfl⟩), List.drop_left]

/-- subStr is monotone under prepending. -/
theorem subStr_append_left {n b : List Char} (a : List Char)
    (h : subStr n b = true) : subStr n (a ++ b) = true := by
  obtain ⟨u, v, rfl⟩ := (subStr_exists n b).1 h
  exact (subStr_exists n (a ++ (u ++ n ++ v))).2 ⟨a ++ u, v, by simp⟩

/-- a middle segment is a substring. -/
theorem subStr_middle (a n v : List Char) : subStr n (a ++ n ++ v) = true :=
  (subStr_exists n (a ++ n ++ v)).2 ⟨a, v, rfl⟩

/-- mre_plus_exact with the continuation value supplied. -/
theorem mre_plus_exact2 {p : Char → Bool} {a b : List Char} {caps : Caps}
    {k : List Char → Caps → Option (List Char × Caps)} {v : List Char × Caps}
    (ha : a ≠ []) (h : ∀ c ∈ a, p c = true)
    (hb : ∀ c, b.head? = some c → p c = false)
    (hk : k b caps = some v) :
    mre (.plus p) (a ++ b) caps k = some v := by
  rw [mre_plus_exact ha h hb (by rw [hk]; rfl)]
  exact hk

/-- card_matchAt_occ: the card pattern anchored at a well-formed
bracketed encoding matches exactly the encoding, capturing the name. -/
theorem card_matchAt_occ (C D rest : List Char)
    (hC : ∀ c ∈ C, isCardCh c = true) (hCne : C ≠ [])
    (hD : ∀ c ∈ D, isNumCh c = true) (hDne : D ≠ []) :
    matchAt cardRe (occf C D rest) = some (rest, [(1, C)]) := by
  simp only [matchAt, cardRe, occf, mre_seq, mre_grp]
  rw [mre_lit_exact]
  refine mre_plus_exact2 hCne hC ?_ ?_
  · intro c hc
    rw [show (str "@:" ++ (D ++ (str ":@]" ++ rest))).head? = some '@' from rfl] at hc
    injection hc with hc
    rw [← hc]
    decide
  · simp only [List.length_append, Nat.add_sub_cancel, List.take_left]
    rw [mre_lit_exact]
    refine mre_plus_exact2 hDne hD ?_ ?_
    · intro c hc
      rw [show (str ":@]" ++ rest).head? = some ':' from rfl] at hc
      injection hc with hc
      rw [← hc]
      decide
    · rw [mre_lit_exact]

/-- card_matchAt_sound: any anchored match of the card pattern
decomposes the input as a well-formed bracketed encoding followed by the
rest, with the name captured as group 1. -/
theorem card_matchAt_sound {s rest : List Char} {caps : Caps}
    (h : matchAt cardRe s = some (rest, caps)) :
    ∃ C D, s = occf C D rest ∧ C ≠ [] ∧ (∀ c ∈ C, isCardCh c = true) ∧
      D ≠ [] ∧ (∀ c ∈ D, isNumCh c = true) ∧ caps = [(1, C)] := by
  simp only [matchAt, cardRe, mre_seq, mre_grp] at h
  obtain ⟨t1, hs1, h1⟩ := mre_lit_some h
  obtain ⟨C, t2, ht1, hCne, hCall, h2⟩ := mre_plus_some h1
  obtain ⟨t3, ht2, h3⟩ := mre_lit_some h2
  obtain ⟨D, t4, ht3, hDne, hDall, h4⟩ := mre_plus_some h3
  obtain ⟨t5, ht4, h5⟩ := mre_lit_some h4
  have h6 : some (t5, [(1, t1.take (t1.length - t2.length))]) = some (rest, caps) := h5
  simp only [Option.some.injEq, Prod.mk.injEq] at h6
  obtain ⟨rfl, hcaps⟩ := h6
  have hcap : t1.take (t1.length - t2.length) = C := by
    rw [ht1, List.length_append, Nat.add_sub_cancel, List.take_left]
  refine ⟨C, D, ?_, hCne, hCall, hDne, hDall, by rw [← hcaps, hcap]⟩
  rw [occf, hs1, ht1, ht2, ht3, ht4]

/-- verbs_sound: a verb alternation match consumes one of the verb
literals. -/
theorem verbs_sound {s : List Char} {caps : Caps}
    {k : List Char → Caps → Option (List Char × Caps)} {res : List Char × Caps}
    (h : mre verbsRe s caps k = some res) :
    ∃ v t, s = v ++ t ∧ k t caps = some res := by
  simp only [verbsRe] at h
  rcases mre_alt_some h with h1 | h1
  · obtain ⟨t, ht, hk⟩ := mre_lit_some h1
    exact ⟨_, t, ht, hk⟩
  rcases mre_alt_some h1 with h2 | h2
  · obtain ⟨t, ht, hk⟩ := mre_lit_some h2
    exact ⟨_, t, ht, hk⟩
  rcases mre_alt_some h2 with h3 | h3
  · obtain ⟨t, ht, hk⟩ := mre_lit_some h3
    exact ⟨_, t, ht, hk⟩
  rcases mre_alt_some h3 with h4 | h4
  · obtain ⟨t, ht, hk⟩ := mre_lit_some h4
    exact ⟨_, t, ht, hk⟩
  · obtain ⟨t, ht, hk⟩ := mre_lit_some h4
    exact ⟨_, t, ht, hk⟩

/-- pcp_matchAt_sound: any anchored match of players_cards_pattern
contains a well-formed bracketed encoding whose name is the group-4
capture. -/
theorem pcp_matchAt_sound {s rest : List Char} {caps : Caps}
    (h : matchAt pcpRe s = some (rest, caps)) :
    ∃ pre C D, s = pre ++ occf C D rest ∧ C ≠ [] ∧
      (∀ c ∈ C, isCardCh2 c = true) ∧ D ≠ [] ∧ (∀ c ∈ D, isNumCh c = true) ∧
      capGetD caps 4 = C := by
  simp only [matchAt, pcpRe, mre_seq, mre_grp] at h
  obtain ⟨t1, hs1, h1⟩ := mre_lit_some h
  obtain ⟨w, t2, ht1, hwne, hwall, h2⟩ := mre_plus_some h1
  obtain ⟨t3, ht2, h3⟩ := mre_lit_some h2
  obtain ⟨v, t4, ht3, h4⟩ := verbs_sound h3
  obtain ⟨t5, ht4, h5⟩ := mre_lit_some h4
  obtain ⟨t6, ht5, h6⟩ := mre_lit_some h5
  obtain ⟨C, t7, ht6, hCne, hCall, h7⟩ := mre_plus_some h6
  obtain ⟨t8, ht7, h8⟩ := mre_lit_some h7
  obtain ⟨D, t9, ht8, hDne, hDall, h9⟩ := mre_plus_some h8
  obtain ⟨t10, ht9, h10⟩ := mre_lit_some h9
  have h11 : some (t10, ((3 : Nat), t5.take (t5.length - t10.length)) ::
      ((4 : Nat), t6.take (t6.length - t7.length)) ::
      ((2 : Nat), t3.take (t3.length - t4.length)) ::
      [((1 : Nat), t1.take (t1.length - t2.length))]) = some (rest, caps) := h10
  simp only [Option.some.injEq, Prod.mk.injEq] at h11
  obtain ⟨rfl, hcaps⟩ := h11
  have hcap4 : t6.take (t6.length - t7.length) = C := by
    rw [ht6, List.length_append, Nat.add_sub_cancel, List.take_left]
  refine ⟨str "@P" ++ (w ++ (str " " ++ (v ++ str " "))), C, D, ?_, hCne, hCall,
    hDne, hDall, ?_⟩
  · rw [occf, hs1, ht1, ht2, ht3, ht4, ht5, ht6, ht7, ht8, ht9]
    simp [List.append_assoc]
  · rw [← hcaps, capGetD, capGet]
    rw [if_neg (by omega)]
    rw [capGet, if_pos rfl]
    simp [hcap4]

/-- two append decompositions of the same list with a shorter left part
overlap. -/
theorem append_overlap {α : Type} {X rest pre2 Y : List α}
    (h : X ++ rest = pre2 ++ Y) (hle : pre2.length ≤ X.length) :
    ∃ X2, X = pre2 ++ X2 ∧ Y = X2 ++ rest := by
  have h1 : pre2 = X.take pre2.length := by
    have h2 := congrArg (List.take pre2.length) h
    rw [List.take_append_of_le_length hle, List.take_append_of_le_length (le_refl _),
      List.take_length] at h2
    exact h2.symm
  have hX : X = pre2 ++ X.drop pre2.length := by
    conv_lhs => rw [← List.take_append_drop pre2.length X]
    rw [← h1]
  refine ⟨X.drop pre2.length, hX, ?_⟩
  have h3 : pre2 ++ Y = pre2 ++ (X.drop pre2.length ++ rest) := by
    rw [← h]
    conv_lhs => rw [hX]
    rw [List.append_assoc]
  exact List.append_cancel_left h3

/-- a list starting with an at-colon pair and continuing without an
at-bracket pair contains no at-bracket pair. -/
theorem noab_cons2 {W : List Char}
    (hW : ∀ X Y, W ≠ X ++ '@' :: '[' :: Y) :
    ∀ X Y, '@' :: ':' :: W ≠ X ++ '@' :: '[' :: Y := by
  intro X Y h
  cases X with
  | nil =>
    injection h with h1 h2
    injection h2 with h3 h4
    exact absurd h3 (by decide)
  | cons x X2 =>
    injection h with h1 h2
    cases X2 with
    | nil =>
      injection h2 with h3 h4
      exact absurd h3.symm (by decide)
    | cons y X3 =>
      injection h2 with h3 h4
      exact hW X3 Y h4

/-- prepending characters other than the at sign preserves the absence
of an at-bracket pair. -/
theorem noab_append {C : List Char} (hC : ∀ c ∈ C, c ≠ '@') {Z : List Char}
    (hZ : ∀ X Y, Z ≠ X ++ '@' :: '[' :: Y) :
    ∀ X Y, C ++ Z ≠ X ++ '@' :: '[' :: Y := by
  induction C with
  | nil => simpa using hZ
  | cons c C2 ih =>
    intro X Y h
    cases X with
    | nil =>
      injection h with h1 h2
      exact hC c (by simp) h1
    | cons x X2 =>
      injection h with h1 h2
      exact ih (fun d hd => hC d (by simp [hd])) X2 Y h2

/-- the closing colon-at-bracket of an encoding contains no at-bracket
pair. -/
theorem noab_close : ∀ X Y, (':' :: '@' :: ']' :: []) ≠ X ++ '@' :: '[' :: Y := by
  intro X Y h
  have hlen := congrArg List.length h
  simp only [List.length_cons, List.length_nil, List.length_append] at hlen
  cases X with
  | nil =>
    injection h with h1
    exact absurd h1 (by decide)
  | cons x X2 =>
    cases X2 with
    | nil =>
      injection h with h1 h2
      injection h2 with h3 h4
      injection h4 with h5 h6
      exact absurd h5 (by decide)
    | cons y X3 =>
      simp at hlen
      omega

/-- two at-free runs before an at sign in the same list agree. -/
theorem run_unique : ∀ {a1 a2 x1 x2 : List Char},
    a1 ++ '@' :: x1 = a2 ++ '@' :: x2 →
    (∀ c ∈ a1, c ≠ '@') → (∀ c ∈ a2, c ≠ '@') → a1 = a2
  | [], a2, x1, x2, h, _, h2 => by
    cases a2 with
    | nil => rfl
    | cons c a3 =>
      injection h with h1
      exact absurd h1.symm (h2 c (by simp))
  | c :: a1, a2, x1, x2, h, h1, h2 => by
    cases a2 with
    | nil =>
      injection h with h3
      exact absurd h3 (h1 c (by simp))
    | cons d a3 =>
      injection h with h3 h4
      rw [h3, run_unique h4 (fun e he => h1 e (by simp [he]))
        (fun e he => h2 e (by simp [he]))]

/-- characters of the card-name class are not the at sign. -/
theorem cardCh_ne_at {c : Char} (h : isCardCh c = true) : c ≠ '@' := by
  intro hc
  rw [hc] at h
  exact absurd h (by decide)

/-- characters of the numeric class are not the at sign. -/
theorem numCh_ne_at {c : Char} (h : isNumCh c = true) : c ≠ '@' := by
  intro hc
  rw [hc] at h
  exact absurd h (by decide)

/-- the no-preferred-name card class is contained in the rewrite class. -/
theorem cardCh2_imp {c : Char} (h : isCardCh2 c = true) : isCardCh c = true := by
  simp only [isCardCh2, Bool.or_eq_true] at h
  simp only [isCardCh, Bool.or_eq_true]
  rcases h with ((h | h) | h) | h
  · exact Or.inl (Or.inl (Or.inl (Or.inl h)))
  · exact Or.inl (Or.inl (Or.inl (Or.inr h)))
  · exact Or.inl (Or.inl (Or.inr h))
  · exact Or.inr h

/-- occBody is the encoding after its opening at-bracket. -/
def occBody (C D : List Char) : List Char :=
  C ++ (str "@:" ++ (D ++ str ":@]"))

/-- occf flattened around the rest. -/
theorem occf_flat (C D rest : List Char) :
    occf C D rest = ('@' :: '[' :: occBody C D) ++ rest := by
  simp [occf, occBody, str, String.data, List.append_assoc]

/-- the encoding body contains no at-bracket pair. -/
theorem occBody_noab {C D : List Char} (hC : ∀ c ∈ C, isCardCh c = true)
    (hD : ∀ c ∈ D, isNumCh c = true) :
    ∀ X Y, occBody C D ≠ X ++ '@' :: '[' :: Y := by
  have b1 : ∀ X Y, (D ++ str ":@]") ≠ X ++ '@' :: '[' :: Y :=
    noab_append (fun c hc => numCh_ne_at (hD c hc)) noab_close
  have b2 : ∀ X Y, (str "@:" ++ (D ++ str ":@]")) ≠ X ++ '@' :: '[' :: Y :=
    noab_cons2 b1
  exact noab_append (fun c hc => cardCh_ne_at (hC c hc)) b2

/-- the encoding ends with the closing bracket. -/
theorem occ_getLast (C D : List Char) :
    ('@' :: '[' :: occBody C D).getLast? = some ']' := by
  have h1 : '@' :: '[' :: occBody C D =
      (('@' :: '[' :: C) ++ (str "@:" ++ D)) ++ str ":@]" := by
    simp [occBody, str, String.data, List.append_assoc]
  rw [h1, List.getLast?_append]
  have h2 : (str ":@]").getLast? = some ']' := by decide
  rw [h2]
  rfl

/-- subCardAux when no match remains. -/
theorem subCardAux_none {fuel : Nat} {s : List Char}
    (h : reSearch cardRe s = none) : subCardAux (fuel + 1) s = s := by
  rw [subCardAux, h]

/-- subCardAux at a found match. -/
theorem subCardAux_some {fuel : Nat} {s : List Char} {p len : Nat} {caps : Caps}
    (h : reSearch cardRe s = some (p, len, caps)) :
    subCardAux (fuel + 1) s =
      s.take p ++ capGetD caps 1 ++ subCardAux fuel (s.drop (p + len)) := by
  rw [subCardAux, h]

/-- the rewrite pass of subCard keeps the plain name of any full card
encoding present in the text: the leftmost match either lies entirely
before the encoding (and the tail recurses), coincides with it (and its
captured group is the name itself), or would overlap it, which the shape
of an encoding forbids. -/
theorem subCard_preserves : ∀ (fuel : Nat) (pre nm D rest : List Char),
    (∀ c ∈ nm, isCardCh c = true) → nm ≠ [] →
    (∀ c ∈ D, isNumCh c = true) → D ≠ [] →
    (pre ++ occf nm D rest).length < fuel →
    subStr nm (subCardAux fuel (pre ++ occf nm D rest)) = true
  | 0, pre, nm, D, rest, _, _, _, _, hlt => absurd hlt (by omega)
  | fuel + 1, pre, nm, D, rest, hnm, hnmne, hD, hDne, hlt => by
    have hmo := card_matchAt_occ nm D rest hnm hnmne hD hDne
    obtain ⟨p, len, caps, hse, hple⟩ :=
      reSearch_le pre (occf nm D rest) (by rw [hmo]; simp)
    rw [subCardAux_some hse]
    obtain ⟨s1, s2, rest2, hsplit, hs1len, hmat, hlen⟩ := reSearch_sound hse
    obtain ⟨C, D2, hs2, hCne, hCall, hD2ne, hD2all, hcaps⟩ := card_matchAt_sound hmat
    have hs2M : s2 = ('@' :: '[' :: occBody C D2) ++ rest2 := by
      rw [hs2, occf_flat]
    obtain ⟨X2, hpre, hs2b⟩ :=
      append_overlap hsplit (by rw [hs1len]; exact hple)
    have heq : ('@' :: '[' :: occBody C D2) ++ rest2 = X2 ++ occf nm D rest :=
      hs2M.symm.trans hs2b
    have hs2len : s2.length = ('@' :: '[' :: occBody C D2).length + rest2.length := by
      rw [hs2M, List.length_append]
    have hMge : 2 ≤ ('@' :: '[' :: occBody C D2).length := by
      simp only [List.length_cons]
      omega
    have hlenM : len = ('@' :: '[' :: occBody C D2).length := by omega
    have hslen : (pre ++ occf nm D rest).length = s1.length + s2.length := by
      rw [hsplit, List.length_append]
    rcases le_or_lt ('@' :: '[' :: occBody C D2).length X2.length with hcase | hcase
    · obtain ⟨X3, hX2s, hrest2⟩ := append_overlap heq.symm hcase
      have hplen : p + len = (s1 ++ ('@' :: '[' :: occBody C D2)).length := by
        rw [List.length_append]
        omega
      have hdrop : (pre ++ occf nm D rest).drop (p + len) = X3 ++ occf nm D rest := by
        rw [hsplit, hs2M, ← List.append_assoc, hplen, List.drop_left]
        exact hrest2
      have hrlen : rest2.length = (X3 ++ occf nm D rest).length :=
        congrArg List.length hrest2
      rw [hdrop]
      exact subStr_append_left _
        (subCard_preserves fuel X3 nm D rest hnm hnmne hD hDne (by omega))
    · obtain ⟨M2, hM, hY⟩ := append_overlap heq (le_of_lt hcase)
      cases M2 with
      | nil =>
        rw [List.append_nil] at hM
        rw [hM] at hcase
        exact absurd hcase (lt_irrefl _)
      | cons a M4 =>
        cases M4 with
        | nil =>
          have hY2 : '@' :: (('[' :: occBody nm D) ++ rest) = a :: rest2 := by
            rw [occf_flat] at hY
            exact hY
          injection hY2 with ha
          have hlast := occ_getLast C D2
          rw [hM, List.getLast?_concat] at hlast
          injection hlast with ha2
          rw [← ha] at ha2
          exact absurd ha2 (by decide)
        | cons b M3 =>
          have hY2 : '@' :: '[' :: (occBody nm D ++ rest) = a :: b :: (M3 ++ rest2) := by
            rw [occf_flat] at hY
            exact hY
          injection hY2 with ha hY3
          injection hY3 with hb hY4
          rw [← ha, ← hb] at hM
          cases X2 with
          | nil =>
            rw [List.nil_append] at hM
            have hocc2 : occf nm D rest = ('@' :: '[' :: occBody C D2) ++ rest2 := by
              rw [hY, hM, ← ha, ← hb]
            have e : occBody nm D ++ rest = occBody C D2 ++ rest2 := by
              have h2 : '@' :: '[' :: (occBody nm D ++ rest) =
                  '@' :: '[' :: (occBody C D2 ++ rest2) := by
                rw [occf_flat] at hocc2
                exact hocc2
              simp only [List.cons.injEq] at h2
              exact h2.2.2
            have hstr2 : str "@:" = '@' :: ':' :: [] := rfl
            have hCnm : nm = C := by
              have e3 := e
              simp only [occBody, hstr2, List.cons_append, List.nil_append,
                List.append_assoc] at e3
              exact run_unique e3 (fun c hc => cardCh_ne_at (hnm c hc))
                (fun c hc => cardCh_ne_at (hCall c hc))
            have hc1 : capGetD caps 1 = nm := by
              rw [hcaps, ← hCnm]
              simp [capGetD, capGet]
            rw [hc1]
            exact subStr_middle _ nm _
          | cons x X5 =>
            have hM2 : '@' :: '[' :: occBody C D2 =
                x :: (X5 ++ '@' :: '[' :: M3) := by
              rw [hM]
              rfl
            injection hM2 with hx hM3
            cases X5 with
            | nil =>
              have hM3b : ('[' : Char) :: occBody C D2 = '@' :: '[' :: M3 := hM3
              injection hM3b with hc
              exact absurd hc (by decide)
            | cons y X6 =>
              have hM4 : '[' :: occBody C D2 = y :: (X6 ++ '@' :: '[' :: M3) := by
                rw [hM3]
                rfl
              injection hM4 with hy hM5
              exact absurd hM5 (occBody_noab hCall hD2all X6 M3)

/-- tC6w is a log with a single well-formed card reference, used to
instantiate the amended C6 theorem. -/
def tC6w : Str := str "@PA casts @[Lightning Bolt@:99:@] end"

/-- C6 (amended): the collection half of the Card Normaliser is sound —
every card name recorded into either role's card set by a successful
_format_cards run occurs as plain text in the rewritten log.  The
no-residual-encoding half of the original sentence fails on nested
encodings (c6_counterexample): the single left-to-right rewrite pass can
assemble a fresh bracketed encoding of a recorded name, so only this
plain-text occurrence guarantee holds. -/
theorem c6_normalizer_amended {pm : Dict Role} {text : Str}
    {cards : CardSets} {out : Str} {nm : Str}
    (h : formatCards pm text = .ok (cards, out))
    (hnm : nm ∈ cards.player ∨ nm ∈ cards.opponent) :
    subStr nm out = true := by
  rw [formatCards] at h
  cases hc : collectCards pm (reFindall pcpRe text) ⟨[], []⟩ with
  | error e =>
    rw [hc] at h
    exact absurd h (by simp)
  | ok cs =>
    rw [hc] at h
    simp only [Except.ok.injEq, Prod.mk.injEq] at h
    obtain ⟨hcs, hout⟩ := h
    rw [hcs] at hc
    rcases collectCards_mem hc nm hnm with hacc | ⟨m, hm, hm4⟩
    · rcases hacc with hacc | hacc <;> exact absurd hacc (by simp)
    · obtain ⟨s1, s2, rest, hsp, hmat⟩ := reFindall_sound hm
      obtain ⟨pre, C, D, hs2e, hCne, hCall, hDne, hDall, hg⟩ := pcp_matchAt_sound hmat
      have hCnm : C = nm := hg.symm.trans hm4
      rw [hCnm] at hs2e hCne hCall
      have htext : text = (s1 ++ pre) ++ occf nm D rest := by
        rw [hsp, hs2e, List.append_assoc]
      rw [← hout, subCard, htext]
      exact subCard_preserves (((s1 ++ pre) ++ occf nm D rest).length + 1)
        (s1 ++ pre) nm D rest (fun c hc2 => cardCh2_imp (hCall c hc2)) hCne
        hDall hDne (by omega)

/-- witness for the amended C6 theorem at a concrete log: the recorded
card Lightning Bolt occurs as plain text in the rewritten log. -/
theorem c6_amended_witness :
    subStr (str "Lightning Bolt") (subCard tC6w) = true := by
  have hh : formatCards pmAB tC6w =
      .ok (⟨[str "Lightning Bolt"], []⟩, subCard tC6w) := by decide
  exact c6_normalizer_amended hh (Or.inl (by decide))
